import Mathlib

/-!
Verification of the poker-table perception pipeline (`ml_pipeline.py`, `ocr.py`).

Python strings are modelled as lists of characters (`Str`), Python floats as
`PyFloat` (an exact rational together with the special values `inf`, `-inf`
and `nan`; binary rounding is not modelled, decimal literals are read
exactly), and decoded JSON documents as the inductive `JVal`.  JSON parsing
and serialization themselves are not re-modelled: `clean_game_state` below
takes the decoded document (the result of `json.loads`), and the
`json.dumps`/`json.loads` round trip of a cleaned state is the explicit
embedding `embedState`, which is the identity on this fragment of JSON.
-/

/-- A Python string, modelled as its list of characters. -/
abbrev Str := List Char

/-- The whitespace characters stripped by Python's `str.strip()`
(ASCII whitespace; exotic Unicode whitespace is outside the token domain). -/
def isSp (c : Char) : Bool :=
  c = ' ' || c = '\t' || c = '\n' || c = '\x0d' || c = '\x0b' || c = '\x0c'

/-- Remove trailing characters satisfying `isSp` (the back half of `strip`). -/
def stripB : Str → Str
  | [] => []
  | a :: t =>
    match stripB t with
    | [] => if isSp a then [] else [a]
    | r => a :: r

/-- Python `str.strip()`: drop leading and trailing whitespace. -/
def strip (s : Str) : Str := stripB (s.dropWhile isSp)

/-- Python `str.upper()` (ASCII case mapping; suits and digits are unaffected). -/
def upper (s : Str) : Str := s.map Char.toUpper

/-- Python `str.lower()` (ASCII case mapping). -/
def lower (s : Str) : Str := s.map Char.toLower

/-- Python `str.replace(c, '')` for a single-character pattern. -/
def removeOcc (c : Char) (s : Str) : Str := s.filter (fun a => a ≠ c)

/-- Whether `p` is a prefix of `s` (Python `str.startswith`). -/
def isPre : Str → Str → Bool
  | [], _ => true
  | _ :: _, [] => false
  | a :: p, b :: s => a = b && isPre p s

/-- Whether `p` is a suffix of `s` (Python `str.endswith`). -/
def endsW (s p : Str) : Bool := isPre p.reverse s.reverse

/-- Whether `pat` occurs as a contiguous substring of `s` (Python `in` on strings). -/
def hasSub (pat : Str) : Str → Bool
  | [] => isPre pat []
  | s@(_ :: t) => isPre pat s || hasSub pat t

/-- Numeric value of a digit string (most significant digit first). -/
def digitsVal (s : Str) : Nat :=
  s.foldl (fun a c => a * 10 + (c.toNat - (Char.toNat '0'))) 0

/-- A Python float: an exact finite rational, or one of the special values.
Decimal-literal parsing is exact here; IEEE-754 binary rounding is not
modelled (the pipeline never does float arithmetic, only parsing,
comparison and re-printing, for which the exact-decimal model agrees). -/
inductive PyFloat where
  | finite (q : ℚ)
  | inf
  | neginf
  | nan
deriving DecidableEq

/-- Python `<` on floats: `nan` is incomparable with everything. -/
def PyFloat.blt : PyFloat → PyFloat → Bool
  | .finite a, .finite b => a < b
  | .finite _, .inf => true
  | .neginf, .finite _ => true
  | .neginf, .inf => true
  | _, _ => false

/-- Python `<=` on floats: `nan` is incomparable with everything. -/
def PyFloat.ble : PyFloat → PyFloat → Bool
  | .finite a, .finite b => a ≤ b
  | .finite _, .inf => true
  | .neginf, .finite _ => true
  | .neginf, .neginf => true
  | .neginf, .inf => true
  | .inf, .inf => true
  | _, _ => false

/-- Unsigned decimal body accepted by Python `float()`:
`digits`, `digits.`, `digits.digits` or `.digits`.  (Exponent notation and
digit-group underscores are accepted by Python but never produced by this
pipeline and are left outside the model.) -/
def parseDec (s : Str) : Option ℚ :=
  let ip := s.takeWhile Char.isDigit
  let rest := s.dropWhile Char.isDigit
  match rest with
  | [] => if ip = [] then none else some ((digitsVal ip : ℚ))
  | '.' :: frac =>
    if frac.all Char.isDigit && !(ip = [] && frac = []) then
      some ((digitsVal ip : ℚ) + (digitsVal frac : ℚ) / (10 : ℚ) ^ frac.length)
    else none
  | _ => none

/-- Strip one leading sign character, reporting whether it was a minus. -/
def splitSign (s : Str) : Bool × Str :=
  match s with
  | [] => (false, [])
  | c :: t => if c = '+' then (false, t) else if c = '-' then (true, t) else (false, c :: t)

/-- Python `float(s)` on a string: strip whitespace, optional sign, then a
decimal body or one of the case-insensitive keywords `inf`/`infinity`/`nan`. -/
def parseFloat (s0 : Str) : Option PyFloat :=
  let s := strip s0
  let neg := (splitSign s).1
  let b := (splitSign s).2
  let low := lower b
  if low = ("inf".data) || low = ("infinity".data) then
    some (if neg then .neginf else .inf)
  else if low = ("nan".data) then some .nan
  else
    match parseDec b with
    | some q => some (.finite (if neg then -q else q))
    | none => none

/-- First match of the regex `\d+\.?\d*` in `s` (Python
`re.findall(r'\d+\.?\d*', s)[0]`): leftmost maximal run of digits, followed
by an optional dot and further digits. -/
def firstNumber : Str → Option Str
  | [] => none
  | c :: t =>
    if c.isDigit then
      let d1 := (c :: t).takeWhile Char.isDigit
      let r := (c :: t).dropWhile Char.isDigit
      some (match r with
            | '.' :: r2 => d1 ++ '.' :: r2.takeWhile Char.isDigit
            | _ => d1)
    else firstNumber t

/-- A decoded JSON document (the result of `json.loads`), which is also the
domain of the Python values the cleaners receive.  An `obj` models a Python
dict as an association list in insertion order with unique keys. -/
inductive JVal where
  | null
  | bool (b : Bool)
  | num (x : PyFloat)
  | str (s : Str)
  | arr (l : List JVal)
  | obj (l : List (Str × JVal))

/-- Python truthiness of a decoded JSON value (`not x`). -/
def pyFalsy : JVal → Bool
  | .null => true
  | .bool b => !b
  | .num x => x = .finite 0
  | .str s => s = []
  | .arr l => l.isEmpty
  | .obj l => l.isEmpty

/-- First-occurrence lookup in an association list (Python `dict` access;
dict keys are unique, so first occurrence is the only occurrence). -/
def lookupA {α : Type} : List (Str × α) → Str → Option α
  | [], _ => none
  | (k, v) :: t, q => if k = q then some v else lookupA t q

/-- Python `dict.get(k, d)`. -/
def lookupD {α : Type} (l : List (Str × α)) (q : Str) (d : α) : α :=
  (lookupA l q).getD d

/-- Python `dict[k] = v` on an association list: overwrite in place if the key is
present (Python keeps the original position), else append. -/
def insertA {α : Type} : List (Str × α) → Str → α → List (Str × α)
  | [], k, v => [(k, v)]
  | (k1, v1) :: t, k, v =>
    if k1 = k then (k1, v) :: t else (k1, v1) :: insertA t k v

/-- Python `dict.get` on a JSON object with a default. -/
def JVal.getJ (d : JVal) (k : Str) (dft : JVal) : JVal :=
  match d with
  | .obj l => lookupD l k dft
  | _ => dft

/-- p-adic valuation with explicit fuel (used only by the float printer). -/
def countFac (p : Nat) : Nat → Nat → Nat
  | 0, _ => 0
  | fuel + 1, n => if n % p = 0 && n ≠ 0 && p ≤ n then 1 + countFac p fuel (n / p) else 0

/-- Left-pad a digit string with zeros to length `k`. -/
def padZeros (k : Nat) (ds : Str) : Str :=
  List.replicate (k - ds.length) '0' ++ ds

/-- Python `repr` of a finite float whose value is an exact decimal
(every float this pipeline produces is one): shortest decimal form, with a
trailing `.0` on integral values.  Rationals without a finite decimal
expansion cannot arise from parsing; they render as `num/den`, which is
deliberately not float-parseable. -/
def ratRepr (q : ℚ) : Str :=
  let sgn : Str := if q < 0 then ['-'] else []
  let n := q.num.natAbs
  let d := q.den
  let a := countFac 2 d d
  let b := countFac 5 d d
  if d = 2 ^ a * 5 ^ b then
    let k := max a b
    let m := n * (10 ^ k / d)
    if k = 0 then sgn ++ Nat.toDigits 10 m ++ (".0".data)
    else sgn ++ Nat.toDigits 10 (m / 10 ^ k) ++ '.' :: padZeros k (Nat.toDigits 10 (m % 10 ^ k))
  else sgn ++ Nat.toDigits 10 n ++ '/' :: Nat.toDigits 10 d

/-- Python `repr`/`str` of a float. -/
def floatRepr : PyFloat → Str
  | .nan => ("nan".data)
  | .inf => ("inf".data)
  | .neginf => ("-inf".data)
  | .finite q => ratRepr q

mutual
/-- Python `repr` of a decoded JSON value (used for values nested inside
containers; strings are quoted, quote escaping inside strings is not
modelled as no claim depends on container rendering). -/
def jvalRepr : JVal → Str
  | .null => ("None".data)
  | .bool b => if b then ("True".data) else ("False".data)
  | .num x => floatRepr x
  | .str s => '\'' :: s ++ ['\'']
  | .arr l => '[' :: jlistRepr l ++ [']']
  | .obj l => '\x7b' :: jobjRepr l ++ ['\x7d']

/-- Python `repr` of the comma-separated elements of a list. -/
def jlistRepr : List JVal → Str
  | [] => []
  | [x] => jvalRepr x
  | x :: xs => jvalRepr x ++ ',' :: ' ' :: jlistRepr xs

/-- Python `repr` of the comma-separated entries of a dict. -/
def jobjRepr : List (Str × JVal) → Str
  | [] => []
  | [(k, v)] => '\'' :: k ++ '\'' :: ':' :: ' ' :: jvalRepr v
  | (k, v) :: xs => '\'' :: k ++ '\'' :: ':' :: ' ' :: jvalRepr v ++ ',' :: ' ' :: jobjRepr xs
end

/-- Python `str()` of a decoded JSON value: a string is itself, everything
else renders via `repr`. -/
def pyStr : JVal → Str
  | .str s => s
  | v => jvalRepr v

/-! ### Card grammar and repair (`ml_pipeline.py`) -/

/-- The rank alternatives of `VALID_CARD_PATTERN`: `A|K|Q|J|10|[2-9]`. -/
def validRanks : List Str :=
  [("A".data), ("K".data), ("Q".data), ("J".data), ("10".data),
   ("2".data), ("3".data), ("4".data), ("5".data), ("6".data),
   ("7".data), ("8".data), ("9".data)]

/-- The four suit symbols of `VALID_CARD_PATTERN`. -/
def validSuits : List Char := ['♠', '♥', '♦', '♣']

/-- The test `VALID_CARD_PATTERN.match(s)`: the whole string is a rank alternative
followed by exactly one suit symbol. -/
def validCard (s : Str) : Bool :=
  match s.reverse with
  | [] => false
  | c :: rest => validSuits.contains c && validRanks.contains rest.reverse

/-- The test `VALID_POSITION_PATTERN.match(s)`. -/
def validPosition (s : Str) : Bool :=
  (["BTN".data, "SB".data, "BB".data, "UTG".data, "MP".data, "CO".data, "HJ".data]).contains s

/-- The ordered suit-replacement table of `normalize_card_format`
(Python dict insertion order; the first `endswith` hit wins). -/
def suitRepl : List (Str × Char) :=
  [(("S".data), '♠'), (("SPADES".data), '♠'), (("SPADE".data), '♠'),
   (("H".data), '♥'), (("HEARTS".data), '♥'), (("HEART".data), '♥'),
   (("D".data), '♦'), (("DIAMONDS".data), '♦'), (("DIAMOND".data), '♦'),
   (("C".data), '♣'), (("CLUBS".data), '♣'), (("CLUB".data), '♣')]

/-- The `for text_suit, symbol in suit_replacements.items()` loop:
replace the first matching suffix by its suit symbol. -/
def applySuitRepl (card : Str) : List (Str × Char) → Str
  | [] => card
  | (t, sym) :: rest =>
    if endsW card t then card.take (card.length - t.length) ++ [sym]
    else applySuitRepl card rest

/-- Model of `normalize_card_format`. -/
def normalize_card_format (card : Str) : Str :=
  let c := strip (upper card)
  if isPre ("10".data) c then ("10".data) ++ c.drop 2
  else if isPre ("T".data) c then ("10".data) ++ c.drop 1
  else applySuitRepl c suitRepl

/-- The `value_corrections` table of `repair_card_ocr_errors`. -/
def valueCorrections (v : Str) : Str :=
  if v = ("0".data) then ("Q".data)
  else if v = ("O".data) then ("Q".data)
  else if v = ("I".data) then ("1".data)
  else if v = ("L".data) then ("1".data)
  else if v = ("S".data) then ("5".data)
  else if v = ("B".data) then ("8".data)
  else if v = ("G".data) then ("6".data)
  else v

/-- Model of `repair_card_ocr_errors`: split off the final character as the suit,
correct the value part through the table, re-normalize. -/
def repair_card_ocr_errors (card : Str) : Option Str :=
  if card.length < 2 then none
  else
    let value_part := card.dropLast
    let suit_part := card.getLast?.getD ' '
    some (normalize_card_format (valueCorrections value_part ++ [suit_part]))

/-- Model of `clean_single_card`: non-strings are dropped; a stripped token of length
at least 2 is normalized, validated, and on failure sent through the OCR
repair pass and validated again. -/
def clean_single_card (v : JVal) : Option Str :=
  match v with
  | .str s0 =>
    let s := strip s0
    if s = [] || s.length < 2 then none
    else
      let c := normalize_card_format s
      if validCard c then some c
      else
        match repair_card_ocr_errors c with
        | some r => if r ≠ [] && validCard r then some r else none
        | none => none
  | _ => none

/-- The loop of `clean_card_list`: keep, in order, the successful cleanings. -/
def cleanCards : List JVal → List Str
  | [] => []
  | c :: t =>
    match clean_single_card c with
    | some x => x :: cleanCards t
    | none => cleanCards t

/-- Model of `clean_card_list` on a decoded JSON value (non-lists become `[]`). -/
def clean_card_list (v : JVal) : List Str :=
  match v with
  | .arr l => cleanCards l
  | _ => []

/-! ### Scalar field cleaners (`ml_pipeline.py`) -/

/-- Model of `clean_pot_value`.  Here `data.get('pot')` with a missing key is `None`,
i.e. `JVal.null` here. -/
def clean_pot_value (v : JVal) : PyFloat :=
  match v with
  | .null => .finite 0
  | .str s =>
    if s = ("N/A".data) then .finite 0
    else
      let cp := removeOcc ' ' (removeOcc ',' (removeOcc '$' s))
      if cp = [] || upper cp = ("N/A".data) then .finite 0
      else
        match parseFloat cp with
        | some x => x
        | none =>
          match firstNumber cp with
          | some n =>
            match parseFloat n with
            | some x => x
            | none => (parseFloat s).getD (.finite 0)
          | none => (parseFloat s).getD (.finite 0)
  | .bool b => .finite (if b then 1 else 0)
  | .num x => x
  | _ => .finite 0

/-- The string-level body of `clean_bankroll_value` (after `str(bankroll)`). -/
def cleanBankrollStr (s : Str) : Str :=
  if strip s = [] then ("N/A".data)
  else
    let bs := strip (removeOcc ',' (removeOcc '$' s))
    if upper bs = ("N/A".data) || bs = [] then ("N/A".data)
    else
      match parseFloat bs with
      | some _ => bs
      | none =>
        match firstNumber bs with
        | some n => n
        | none => ("N/A".data)

/-- Model of `clean_bankroll_value`. -/
def clean_bankroll_value (v : JVal) : Str :=
  match v with
  | .null => ("N/A".data)
  | _ => cleanBankrollStr (pyStr v)

/-- The string-level body of `clean_vpip_value` (after `str(vpip)`).
A bare value that parses as a float gets `'%'` appended with no range
check; only a value already ending in `'%'` is range-checked against
`[0, 100]` (a non-finite percentage fails `0 <= p <= 100`). -/
def cleanVpipStr (s : Str) : Str :=
  let vs := strip s
  if vs = ("--".data) || vs = ("N/A".data) || vs = [] then ("--".data)
  else if !endsW vs ("%".data) then
    match parseFloat vs with
    | some _ => vs ++ ("%".data)
    | none => ("--".data)
  else
    match parseFloat vs.dropLast with
    | some (.finite q) => if 0 ≤ q ∧ q ≤ 100 then vs else ("--".data)
    | _ => ("--".data)

/-- Model of `clean_vpip_value`. -/
def clean_vpip_value (v : JVal) : Str :=
  match v with
  | .null => ("--".data)
  | _ => cleanVpipStr (pyStr v)

/-- The `position_corrections` long-form synonym table. -/
def positionCorrections (p : Str) : Str :=
  if p = ("BUTTON".data) then ("BTN".data)
  else if p = ("BU".data) then ("BTN".data)
  else if p = ("SMALL".data) then ("SB".data)
  else if p = ("SMALL_BLIND".data) then ("SB".data)
  else if p = ("BIG".data) then ("BB".data)
  else if p = ("BIG_BLIND".data) then ("BB".data)
  else if p = ("UNDER_THE_GUN".data) then ("UTG".data)
  else if p = ("MIDDLE".data) then ("MP".data)
  else if p = ("CUTOFF".data) then ("CO".data)
  else if p = ("HIJACK".data) then ("HJ".data)
  else ("--".data)

/-- The string-level body of `clean_position_value`. -/
def cleanPositionStr (s : Str) : Str :=
  let ps := upper (strip s)
  if ps = ("--".data) || ps = ("N/A".data) || ps = [] then ("--".data)
  else if validPosition ps then ps
  else positionCorrections ps

/-- Model of `clean_position_value`. -/
def clean_position_value (v : JVal) : Str :=
  match v with
  | .null => ("--".data)
  | _ => cleanPositionStr (pyStr v)

/-- The string-level body of `clean_action_value`:
case-insensitive substring buckets. -/
def cleanActionStr (s : Str) : Str :=
  let as0 := lower (strip s)
  if as0 = ("--".data) || as0 = ("n/a".data) || as0 = [] then ("--".data)
  else if hasSub ("fold".data) as0 || hasSub ("folded".data) as0 then ("Fold".data)
  else if hasSub ("raise".data) as0 || hasSub ("bet".data) as0 ||
          hasSub ("all-in".data) as0 || hasSub ("allin".data) as0 then ("Raise".data)
  else if hasSub ("call".data) as0 || hasSub ("check".data) as0 then ("Call".data)
  else ("--".data)

/-- Model of `clean_action_value`. -/
def clean_action_value (v : JVal) : Str :=
  match v with
  | .null => ("--".data)
  | _ => cleanActionStr (pyStr v)

/-- The string-level body of `clean_bet_value`. -/
def cleanBetStr (s : Str) : Str :=
  let bs := strip (removeOcc ',' (removeOcc '$' s))
  if upper bs = ("N/A".data) || upper bs = ("--".data) || bs = [] then ("N/A".data)
  else
    match parseFloat bs with
    | some _ => bs
    | none =>
      match firstNumber bs with
      | some n => n
      | none => ("N/A".data)

/-- Model of `clean_bet_value`. -/
def clean_bet_value (v : JVal) : Str :=
  match v with
  | .null => ("N/A".data)
  | _ => cleanBetStr (pyStr v)

/-! ### Assembled state (`ml_pipeline.py`) -/

/-- One cleaned player record (the dict built by `clean_players_data`;
the five keys are always present, so it is a record here). -/
structure CPlayer where
  bankroll : Str
  vpip : Str
  position : Str
  action : Str
  bet : Str
deriving DecidableEq

/-- The cleaned game state (the dict built by `clean_game_state`; the four
top-level keys are always present, so it is a record here, and `players`
is a dict in insertion order). -/
structure CState where
  pot : PyFloat
  board : List Str
  hero_cards : List Str
  players : List (Str × CPlayer)
deriving DecidableEq

/-- The Python comparison `bankroll == 'N/A'` on a decoded value: only the
exact string compares equal. -/
def isNAStr : JVal → Bool
  | .str s => s = ("N/A".data)
  | _ => false

/-- Clean one raw player entry (the body of the `clean_players_data` loop);
`none` when the entry is skipped. -/
def cleanOnePlayer (pv : JVal) : Option CPlayer :=
  match pv with
  | .obj pl =>
    let bank := lookupD pl ("bankroll".data) (.str ("N/A".data))
    if isNAStr bank || pyFalsy bank then none
    else
      let cp : CPlayer :=
        { bankroll := clean_bankroll_value bank
          vpip := clean_vpip_value (lookupD pl ("vpip".data) (.str ("--".data)))
          position := clean_position_value (lookupD pl ("position".data) (.str ("--".data)))
          action := clean_action_value (lookupD pl ("action".data) (.str ("--".data)))
          bet := clean_bet_value (lookupD pl ("bet".data) (.str ("N/A".data))) }
      if cp.bankroll ≠ ("N/A".data) then some cp else none
  | _ => none

/-- The `clean_players_data` loop with its accumulated output dict. -/
def cleanPlayersGo : List (Str × JVal) → List (Str × CPlayer) → List (Str × CPlayer)
  | [], acc => acc
  | (name, pv) :: t, acc =>
    match cleanOnePlayer pv with
    | some cp => cleanPlayersGo t (insertA acc name cp)
    | none => cleanPlayersGo t acc

/-- Model of `clean_players_data` (non-dicts become `{}`). -/
def clean_players_data (v : JVal) : List (Str × CPlayer) :=
  match v with
  | .obj l => cleanPlayersGo l []
  | _ => []

/-- Model of `validate_game_state`.  The four required keys, the number-ness of
`pot`, the list-ness of `board`/`hero_cards` and the dict-ness of `players`
hold by construction of `CState`; the value-level checks remain.  Note the
pot check is `not (pot < 0)`, which `nan` passes. -/
def validate_game_state (st : CState) : Bool :=
  !(PyFloat.blt st.pot (.finite 0)) && st.board.length ≤ 5 && st.hero_cards.length ≤ 2

/-- Model of `clean_game_state` from the decoded JSON document onward (the
empty-input and JSON-decode-error paths of the source also return `None`;
a non-dict document is rejected). -/
def clean_game_state (d : JVal) : Option CState :=
  match d with
  | .obj _ =>
    let st : CState :=
      { pot := clean_pot_value (d.getJ ("pot".data) .null)
        board := clean_card_list (d.getJ ("board".data) (.arr []))
        hero_cards := clean_card_list (d.getJ ("hero_cards".data) (.arr []))
        players := clean_players_data (d.getJ ("players".data) (.obj [])) }
    if validate_game_state st then some st else none
  | _ => none

/-- The `json.loads(json.dumps(...))` round trip of one cleaned player:
all five fields are strings. -/
def embedPlayer (p : CPlayer) : JVal :=
  .obj [(("bankroll".data), .str p.bankroll), (("vpip".data), .str p.vpip),
        (("position".data), .str p.position), (("action".data), .str p.action),
        (("bet".data), .str p.bet)]

/-- The `json.loads(json.dumps(...))` round trip of a cleaned state (the
round trip is the identity on this fragment of JSON: finite floats
re-parse from their `repr`, and the container structure is preserved). -/
def embedState (st : CState) : JVal :=
  .obj [(("pot".data), .num st.pot),
        (("board".data), .arr (st.board.map .str)),
        (("hero_cards".data), .arr (st.hero_cards.map .str)),
        (("players".data), .obj (st.players.map (fun np => (np.1, embedPlayer np.2))))]

/-! ### The OCR polling cycle (`ocr.py`)

The screen readings themselves are the sensor boundary: one `CycleIn`
carries, for one polling cycle, exactly the values the capture helpers
return — the pot token from `_pot`, the assembled board and hero card lists
from `_board`/`_hero_cards`, and, per seat region, the raw bankroll / VPIP /
bet tokens from `_first`, the joined lower-cased action text from `_text`,
and the dealer-button colour distance from `_grab` (`none` models a capture
exception, which the source turns into distance `float('inf')`). -/

/-- The seven fixed seat names (the keys of every region table). -/
def allPlayers : List Str :=
  [("Hero".data), ("Player 2".data), ("Player 3".data), ("Player 4".data),
   ("Player 5".data), ("Player 6".data), ("Player 7".data)]

/-- The raw sensor readings of one polling cycle. -/
structure CycleIn where
  pot : Str
  board : List Str
  hero : List Str
  bank : Str → Str
  vpipRaw : Str → Str
  posDist : Str → Option ℚ
  words : Str → Str
  betRaw : Str → Str

/-- The snapshot tuple built by `refresh_all` for change detection. -/
structure Snap where
  pot : Str
  board : List Str
  hero : List Str
  bank : List (Str × Str)
  vpip : List (Str × Str)
  pos : List (Str × Str)
  acts : List (Str × Str)
  bets : List (Str × Str)
deriving DecidableEq

/-- The cross-cycle state of the `OCR` object. -/
structure OCRState where
  seated : List Str
  bankrolls : List (Str × Str)
  vpips : List (Str × Str)
  positions : List (Str × Str)
  actions : List (Str × Str)
  bets : List (Str × Str)
  prevHash : Option Snap
  folded : List Str
  lastStreet : Nat
  lastHero : List Str
  lastBoard : List Str

/-- Model of `_bankrolls`: one raw reading per fixed seat. -/
def bankrollsOf (i : CycleIn) : List (Str × Str) :=
  allPlayers.map (fun p => (p, i.bank p))

/-- The seated players: the seats whose bankroll reading is not `"N/A"`
(the side effect on `self.seated_players` in `_bankrolls`). -/
def seatedOf (i : CycleIn) : List Str :=
  allPlayers.filter (fun p => i.bank p ≠ ("N/A".data))

/-- Model of `_vpips`: raw reading plus `"%"`, for seated players only. -/
def vpipsOf (i : CycleIn) : List (Str × Str) :=
  (seatedOf i).map (fun p => (p, i.vpipRaw p ++ ("%".data)))

/-- Comparison of button-colour distances, `none` playing `float('inf')`. -/
def distLt : Option ℚ → Option ℚ → Bool
  | some a, some b => a < b
  | some _, none => true
  | none, _ => false

/-- Python `min(dists, key=dists.get)`: first key attaining the minimum, in seat
order (Python `min` replaces the current best only on a strict decrease). -/
def argminDist (l : List (Str × Option ℚ)) : Option Str :=
  match l with
  | [] => none
  | x :: t => some ((t.foldl (fun best y => if distLt y.2 best.2 then y else best) x).1)

/-- Index of the first occurrence (`list.index`). -/
def idxOfS : List Str → Str → Nat
  | [], _ => 0
  | a :: t, p => if a = p then 0 else idxOfS t p + 1

/-- Python `seated[idx:] + seated[:idx]`: rotate the seat list to start at `p`. -/
def rotateAt (l : List Str) (p : Str) : List Str :=
  l.drop (idxOfS l p) ++ l.take (idxOfS l p)

/-- The rotation labels `["BTN","SB","BB","UTG","MP","CO","HJ"]`. -/
def posLabels : List Str :=
  [("BTN".data), ("SB".data), ("BB".data), ("UTG".data), ("MP".data), ("CO".data), ("HJ".data)]

/-- Model of `_positions`: distances for every seated player (a capture exception is
distance infinity, so `dists` is empty exactly when no one is seated); the
first-minimum seat is the button and labels are assigned by rotation,
truncated by `zip`.  The source's inner `except` fallback is unreachable
(`btn` is an element of `seated`, so `index` cannot fail). -/
def positionsOf (i : CycleIn) : List (Str × Str) :=
  let seated := seatedOf i
  let dists := seated.map (fun p => (p, i.posDist p))
  match argminDist dists with
  | none => seated.map (fun p => (p, "--".data))
  | some btn => (rotateAt seated btn).zip posLabels

/-- Python `set.add`: membership-preserving insert. -/
def insertS (p : Str) (s : List Str) : List Str :=
  if p ∈ s then s else s ++ [p]

/-- One iteration of the `_actions` loop: the folded set accumulates and a
sticky `"Fold"` is reported for any already-folded seat. -/
def actStep (i : CycleIn) (acc : List Str × List (Str × Str)) (p : Str) :
    List Str × List (Str × Str) :=
  let folded := acc.1
  let acts := acc.2
  if p ∈ allPlayers then
    if hasSub ("fold".data) (i.words p) then
      (insertS p folded, acts ++ [(p, "Fold".data)])
    else if p ∈ folded then (folded, acts ++ [(p, "Fold".data)])
    else if hasSub ("raise".data) (i.words p) then (folded, acts ++ [(p, "Raise".data)])
    else if hasSub ("call".data) (i.words p) then (folded, acts ++ [(p, "Call".data)])
    else (folded, acts ++ [(p, "--".data)])
  else (folded, acts ++ [(p, "--".data)])

/-- Model of `_actions`: fold over the seated players, threading the folded set. -/
def actionsOf (i : CycleIn) (folded : List Str) : List Str × List (Str × Str) :=
  (seatedOf i).foldl (actStep i) (folded, [])

/-- Model of `_bets`: one raw reading per seated player. -/
def betsOf (i : CycleIn) : List (Str × Str) :=
  (seatedOf i).map (fun p => (p, i.betRaw p))

/-- Python `set(a) != set(b)` negated: the two lists have the same members. -/
def sameSet (a b : List Str) : Bool :=
  a.all (fun x => x ∈ b) && b.all (fun x => x ∈ a)

/-- The three hand-reset scenarios of `refresh_all`: hero cards
disappeared, board cleared, or two fresh hole cards differing as a set. -/
def handResetOf (st : OCRState) (i : CycleIn) : Bool :=
  (!st.lastHero.isEmpty && i.hero.isEmpty) ||
  (!st.lastBoard.isEmpty && i.board.isEmpty) ||
  (i.hero.length = 2 && st.lastHero.length = 2 && !sameSet i.hero st.lastHero)

/-- The per-cycle hand-lifecycle classification (spec §4.4): transient,
evaluated once per cycle. -/
inductive Cls where
  | reset
  | advance
  | steady
deriving DecidableEq

/-- Classification as computed by `refresh_all`: `hand_reset` has priority,
then a street change against the recorded street length, else steady. -/
def classify (st : OCRState) (i : CycleIn) : Cls :=
  if handResetOf st i then .reset
  else if i.board.length ≠ st.lastStreet then .advance
  else .steady

/-- Lexicographic strict order on strings (Python string `<`, by code point). -/
def lexLt : Str → Str → Bool
  | [], [] => false
  | [], _ :: _ => true
  | _ :: _, [] => false
  | a :: s, b :: t => if a < b then true else if b < a then false else lexLt s t

/-- Insert into a key-sorted association list. -/
def insSorted (x : Str × Str) : List (Str × Str) → List (Str × Str)
  | [] => [x]
  | y :: t => if lexLt x.1 y.1 then x :: y :: t else y :: insSorted x t

/-- Python `sorted(d.items())`: key-sorted entries (keys are unique, so the
value component never decides the order). -/
def sortKV (l : List (Str × Str)) : List (Str × Str) :=
  l.foldr insSorted []

/-- The per-hand tracking update of `refresh_all`: on a street change or a
hand reset, clear action/bet tracking (and the folded set on a reset) and
record the new street length; otherwise re-read actions and bets.
Returns (folded, actions, bets, last_street_count). -/
def trackOf (st : OCRState) (i : CycleIn) :
    List Str × List (Str × Str) × List (Str × Str) × Nat :=
  if i.board.length ≠ st.lastStreet || handResetOf st i then
    ((if handResetOf st i then [] else st.folded),
     (seatedOf i).map (fun p => (p, "--".data)),
     (seatedOf i).map (fun p => (p, "N/A".data)),
     i.board.length)
  else
    let fa := actionsOf i st.folded
    (fa.1, fa.2, betsOf i, st.lastStreet)

/-- The deterministic snapshot of all raw extracted fields, seat-sorted
(`str(snapshot)` is injective on these tuples, so comparing the tuples
models comparing the hash strings; the initial `prev_hash = ""` is `none`). -/
def snapOf (st : OCRState) (i : CycleIn) : Snap :=
  let t := trackOf st i
  { pot := i.pot, board := i.board, hero := i.hero
    bank := sortKV (bankrollsOf i), vpip := sortKV (vpipsOf i)
    pos := sortKV (positionsOf i), acts := sortKV t.2.1, bets := sortKV t.2.2.1 }

/-- One serialized player entry of `GameState.to_json` (`update_players`
iterates all bankroll keys, i.e. all seven seats, with defaults). -/
structure EPlayer where
  bankroll : Str
  vpip : Str
  position : Str
  action : Str
  bet : Str
deriving DecidableEq

/-- The serialized state emitted by `refresh_all` (the persisted document). -/
structure Emit where
  pot : Str
  board : List Str
  hero_cards : List Str
  players : List (Str × EPlayer)
deriving DecidableEq

/-- Model of `GameState.update_players` + `to_json`. -/
def emitOf (i : CycleIn) (acts bets : List (Str × Str)) : Emit :=
  { pot := i.pot
    board := i.board
    hero_cards := i.hero
    players := allPlayers.map (fun p =>
      (p, { bankroll := lookupD (bankrollsOf i) p ("N/A".data)
            vpip := lookupD (vpipsOf i) p ("--".data)
            position := lookupD (positionsOf i) p ("--".data)
            action := lookupD acts p ("--".data)
            bet := lookupD bets p ("N/A".data) })) }

/-- Model of `refresh_all`: read all fields, update hand-lifecycle tracking, build
the snapshot, and emit (returning the serialized state, which the source
also writes to `game_state.json`) exactly when the snapshot changed or a
hand reset fired; otherwise return `None`. -/
def refresh_all (st : OCRState) (i : CycleIn) : OCRState × Option Emit :=
  let t := trackOf st i
  let snap := snapOf st i
  let changed : Bool := decide (st.prevHash ≠ some snap) || handResetOf st i
  let st' : OCRState :=
    { seated := seatedOf i
      bankrolls := bankrollsOf i
      vpips := vpipsOf i
      positions := positionsOf i
      actions := t.2.1
      bets := t.2.2.1
      prevHash := if changed then some snap else st.prevHash
      folded := t.1
      lastStreet := t.2.2.2
      lastHero := i.hero
      lastBoard := i.board }
  (st', if changed then some (emitOf i t.2.1 t.2.2.1) else none)

/-- One cycle's state transition. -/
def cycleStep (st : OCRState) (i : CycleIn) : OCRState := (refresh_all st i).1

/-- Run a sequence of cycles. -/
def runCycles (st : OCRState) (l : List CycleIn) : OCRState :=
  l.foldl cycleStep st

/-! ### Basic lemmas about the string model -/

theorem digit_toUpper (c : Char) (h : c.isDigit = true) : c.toUpper = c := by
  unfold Char.toUpper
  simp only [Char.isDigit] at h
  rw [if_neg]
  intro hc
  obtain ⟨h1, _⟩ := hc
  have h9 : c ≤ '9' := by
    rcases Bool.and_eq_true_iff.mp h with ⟨_, h2⟩
    exact of_decide_eq_true h2
  have : (97 : Nat) ≤ 57 := le_trans h1 h9
  omega

theorem digit_not_sp (c : Char) (h : c.isDigit = true) : isSp c = false := by
  simp only [isSp, Bool.or_eq_false_iff, decide_eq_false_iff_not]
  refine ⟨⟨⟨⟨⟨?_, ?_⟩, ?_⟩, ?_⟩, ?_⟩, ?_⟩ <;> rintro rfl <;> simp [Char.isDigit] at h

theorem stripB_nil : stripB [] = [] := rfl

theorem stripB_cons_of_nil {a : Char} {t : Str} (h : stripB t = []) :
    stripB (a :: t) = if isSp a then [] else [a] := by
  simp only [stripB, h]

theorem stripB_cons_of_cons {a : Char} {t : Str} {b : Char} {r : Str}
    (h : stripB t = b :: r) : stripB (a :: t) = a :: b :: r := by
  simp only [stripB, h]

theorem dw_length_le (p : Char → Bool) (l : Str) : (l.dropWhile p).length ≤ l.length :=
  (List.dropWhile_sublist p (l := l)).length_le

theorem mem_stripB {c : Char} : ∀ {s : Str}, c ∈ stripB s → c ∈ s := by
  intro s
  induction s with
  | nil => simp [stripB]
  | cons a t ih =>
    cases ht : stripB t with
    | nil =>
      rw [stripB_cons_of_nil ht]
      split
      · simp
      · simp only [List.mem_singleton]
        rintro rfl
        exact List.mem_cons_self _ _
    | cons b r =>
      rw [stripB_cons_of_cons ht]
      intro h
      rcases List.mem_cons.mp h with rfl | h2
      · exact List.mem_cons_self _ _
      · exact List.mem_cons_of_mem _ (ih (ht ▸ h2))

theorem mem_dropWhile {p : Char → Bool} {c : Char} :
    ∀ {s : Str}, c ∈ s.dropWhile p → c ∈ s := by
  intro s
  induction s with
  | nil => simp
  | cons a t ih =>
    by_cases hp : p a = true
    · rw [List.dropWhile_cons_of_pos hp]
      intro h
      exact List.mem_cons_of_mem _ (ih h)
    · rw [List.dropWhile_cons_of_neg (by simp [hp])]
      exact id

theorem mem_strip {c : Char} {s : Str} (h : c ∈ strip s) : c ∈ s :=
  mem_dropWhile (mem_stripB h)

theorem stripB_all_not {s : Str} (h : ∀ c ∈ s, isSp c = false) : stripB s = s := by
  induction s with
  | nil => rfl
  | cons a t ih =>
    have ht := ih (fun c hc => h c (List.mem_cons_of_mem _ hc))
    cases t with
    | nil =>
      rw [stripB_cons_of_nil stripB_nil]
      simp [h a (List.mem_cons_self _ _)]
    | cons b r => exact stripB_cons_of_cons ht

theorem dropWhile_all_not {s : Str} (h : ∀ c ∈ s, isSp c = false) :
    s.dropWhile isSp = s := by
  cases s with
  | nil => rfl
  | cons a t =>
    rw [List.dropWhile_cons_of_neg]
    simp [h a (List.mem_cons_self _ _)]

theorem strip_all_not {s : Str} (h : ∀ c ∈ s, isSp c = false) : strip s = s := by
  unfold strip
  rw [dropWhile_all_not h, stripB_all_not h]

theorem stripB_length_le : ∀ s : Str, (stripB s).length ≤ s.length := by
  intro s
  induction s with
  | nil => simp [stripB]
  | cons a t ih =>
    cases ht : stripB t with
    | nil =>
      rw [stripB_cons_of_nil ht]
      split <;> simp
    | cons b r =>
      rw [stripB_cons_of_cons ht]
      rw [ht] at ih
      simp only [List.length_cons] at ih ⊢
      omega

theorem stripB_length_eq : ∀ {s : Str}, (stripB s).length = s.length → stripB s = s := by
  intro s
  induction s with
  | nil => intro _; rfl
  | cons a t ih =>
    cases ht : stripB t with
    | nil =>
      rw [stripB_cons_of_nil ht]
      have hle := stripB_length_le t
      rw [ht] at hle
      simp only [List.length_nil] at hle
      by_cases ha : isSp a = true
      · rw [if_pos ha]
        intro h
        simp at h
      · rw [if_neg ha]
        intro h
        simp only [List.length_singleton, List.length_cons, List.length_nil] at h
        have hte : t = [] := List.eq_nil_of_length_eq_zero (by omega)
        subst hte
        rfl
    | cons b r =>
      rw [stripB_cons_of_cons ht]
      simp only [List.length_cons]
      intro h
      have h2 : (stripB t).length = t.length := by
        rw [ht]
        simp only [List.length_cons]
        omega
      have h3 := ih h2
      rw [ht] at h3
      rw [h3]

theorem dropWhile_length_eq {p : Char → Bool} :
    ∀ {s : Str}, (s.dropWhile p).length = s.length → s.dropWhile p = s := by
  intro s
  induction s with
  | nil => simp
  | cons a t ih =>
    by_cases hp : p a = true
    · rw [List.dropWhile_cons_of_pos hp]
      intro h
      have := dw_length_le p t
      simp only [List.length_cons] at h
      omega
    · rw [List.dropWhile_cons_of_neg (by simp [hp])]
      intro _
      rfl

theorem strip_eq_self_parts {s : Str} (h : strip s = s) :
    s.dropWhile isSp = s ∧ stripB s = s := by
  unfold strip at h
  have h1 : (s.dropWhile isSp).length = s.length := by
    have hb := stripB_length_le (s.dropWhile isSp)
    have hd := dw_length_le isSp s
    have hh : (stripB (s.dropWhile isSp)).length = s.length := by rw [h]
    omega
  have h2 : s.dropWhile isSp = s := dropWhile_length_eq h1
  rw [h2] at h
  exact ⟨h2, h⟩

theorem stripB_stripB : ∀ u : Str, stripB (stripB u) = stripB u := by
  intro u
  induction u with
  | nil => rfl
  | cons a t ih =>
    cases ht : stripB t with
    | nil =>
      rw [stripB_cons_of_nil ht]
      split
      · rfl
      · rename_i ha
        rw [stripB_cons_of_nil stripB_nil]
        simp [ha]
    | cons b r =>
      rw [stripB_cons_of_cons ht]
      rw [ht] at ih
      exact stripB_cons_of_cons ih

theorem stripB_head? : ∀ {v : Str}, stripB v ≠ [] → (stripB v).head? = v.head? := by
  intro v
  induction v with
  | nil => simp [stripB]
  | cons a t _ =>
    cases ht : stripB t with
    | nil =>
      rw [stripB_cons_of_nil ht]
      split
      · simp
      · intro _; rfl
    | cons b r =>
      rw [stripB_cons_of_cons ht]
      intro _; rfl

theorem strip_strip (s : Str) : strip (strip s) = strip s := by
  unfold strip
  have hdw : (stripB (s.dropWhile isSp)).dropWhile isSp = stripB (s.dropWhile isSp) := by
    cases hs : stripB (s.dropWhile isSp) with
    | nil => rfl
    | cons a t =>
      rw [List.dropWhile_cons_of_neg]
      have h1 : (stripB (s.dropWhile isSp)).head? = (s.dropWhile isSp).head? :=
        stripB_head? (by rw [hs]; simp)
      rw [hs] at h1
      have h2 := List.head?_dropWhile_not isSp s
      rw [← h1] at h2
      simp only [List.head?_cons] at h2
      simp [h2]
  rw [hdw, stripB_stripB]

/-! ### Parsing lemmas -/


/-! ### Parsing lemmas -/

theorem digit_toLower (c : Char) (h : c.isDigit = true) : c.toLower = c := by
  unfold Char.toLower
  simp only [Char.isDigit] at h
  rw [if_neg]
  intro hc
  obtain ⟨h1, _⟩ := hc
  have h9 : c ≤ '9' := by
    rcases Bool.and_eq_true_iff.mp h with ⟨_, h2⟩
    exact of_decide_eq_true h2
  have : (65 : Nat) ≤ 57 := le_trans h1 h9
  omega

theorem takeWhile_all {p : Char → Bool} :
    ∀ {l : Str}, (∀ c ∈ l, p c = true) → l.takeWhile p = l := by
  intro l
  induction l with
  | nil => simp
  | cons a t ih =>
    intro h
    rw [List.takeWhile_cons_of_pos (h a (List.mem_cons_self _ _))]
    rw [ih (fun c hc => h c (List.mem_cons_of_mem _ hc))]

theorem dropWhile_all {p : Char → Bool} :
    ∀ {l : Str}, (∀ c ∈ l, p c = true) → l.dropWhile p = [] := by
  intro l
  induction l with
  | nil => simp
  | cons a t ih =>
    intro h
    rw [List.dropWhile_cons_of_pos (h a (List.mem_cons_self _ _))]
    exact ih (fun c hc => h c (List.mem_cons_of_mem _ hc))

theorem takeWhile_append_not {p : Char → Bool} {x : Char} {r : Str}
    (hx : p x = false) :
    ∀ {d : Str}, (∀ c ∈ d, p c = true) → (d ++ x :: r).takeWhile p = d := by
  intro d
  induction d with
  | nil =>
    intro _
    simp only [List.nil_append]
    rw [List.takeWhile_cons_of_neg (by simp [hx])]
  | cons a t ih =>
    intro h
    simp only [List.cons_append]
    rw [List.takeWhile_cons_of_pos (h a (List.mem_cons_self _ _))]
    rw [ih (fun c hc => h c (List.mem_cons_of_mem _ hc))]

theorem dropWhile_append_not {p : Char → Bool} {x : Char} {r : Str}
    (hx : p x = false) :
    ∀ {d : Str}, (∀ c ∈ d, p c = true) → (d ++ x :: r).dropWhile p = x :: r := by
  intro d
  induction d with
  | nil =>
    intro _
    simp only [List.nil_append]
    rw [List.dropWhile_cons_of_neg (by simp [hx])]
  | cons a t ih =>
    intro h
    simp only [List.cons_append]
    rw [List.dropWhile_cons_of_pos (h a (List.mem_cons_self _ _))]
    exact ih (fun c hc => h c (List.mem_cons_of_mem _ hc))

theorem splitSign_digit {c : Char} {t : Str} (h : c.isDigit = true) :
    splitSign (c :: t) = (false, c :: t) := by
  show (if c = '+' then ((false : Bool), t)
        else if c = '-' then (true, t) else (false, c :: t)) = ((false : Bool), c :: t)
  rw [if_neg, if_neg]
  · rintro rfl
    simp [Char.isDigit] at h
  · rintro rfl
    simp [Char.isDigit] at h

theorem lower_digit_head {c : Char} {t : Str} (h : c.isDigit = true) :
    lower (c :: t) = c :: lower t := by
  simp only [lower, List.map_cons, digit_toLower c h]

theorem digitish_not_sp {c : Char} (h : c.isDigit = true ∨ c = '.') : isSp c = false := by
  rcases h with h | rfl
  · exact digit_not_sp c h
  · decide

theorem strip_digitish {s : Str} (h : ∀ c ∈ s, c.isDigit = true ∨ c = '.') :
    strip s = s :=
  strip_all_not (fun c hc => digitish_not_sp (h c hc))

theorem inf_data : ("inf".data : Str) = ['i', 'n', 'f'] := rfl

theorem infinity_data : ("infinity".data : Str) = ['i', 'n', 'f', 'i', 'n', 'i', 't', 'y'] := rfl

theorem nan_data : ("nan".data : Str) = ['n', 'a', 'n'] := rfl

theorem parseFloat_digit_head {c : Char} {t : Str} (hc : c.isDigit = true)
    (hstr : strip (c :: t) = c :: t) :
    parseFloat (c :: t) = (parseDec (c :: t)).map (fun q => .finite q) := by
  unfold parseFloat
  rw [hstr]
  simp only [splitSign_digit hc, lower_digit_head hc, inf_data, infinity_data, nan_data]
  rw [if_neg, if_neg]
  · cases parseDec (c :: t) <;> simp
  · intro he
    rw [List.cons.injEq] at he
    rw [he.1] at hc
    simp [Char.isDigit] at hc
  · intro he
    rcases Bool.or_eq_true_iff.mp he with h1 | h1 <;>
    · rw [decide_eq_true_eq, List.cons.injEq] at h1
      rw [h1.1] at hc
      simp [Char.isDigit] at hc

theorem parseFloat_digits {c : Char} {t : Str}
    (hall : ∀ x ∈ c :: t, x.isDigit = true) : (parseFloat (c :: t)).isSome = true := by
  have hc : c.isDigit = true := hall c (List.mem_cons_self _ _)
  rw [parseFloat_digit_head hc (strip_all_not (fun x hx => digit_not_sp x (hall x hx)))]
  unfold parseDec
  rw [takeWhile_all hall, dropWhile_all hall]
  simp only
  rw [if_neg (by simp)]
  simp

theorem parseFloat_digits_frac {c : Char} {t f : Str}
    (hall : ∀ x ∈ c :: t, x.isDigit = true) (hf : ∀ x ∈ f, x.isDigit = true) :
    (parseFloat (c :: t ++ '.' :: f)).isSome = true := by
  have hc : c.isDigit = true := hall c (List.mem_cons_self _ _)
  have hstr : strip (c :: t ++ '.' :: f) = c :: t ++ '.' :: f := by
    apply strip_all_not
    intro x hx
    rcases List.mem_append.mp hx with h1 | h1
    · exact digit_not_sp x (hall x h1)
    · rcases List.mem_cons.mp h1 with rfl | h2
      · decide
      · exact digit_not_sp x (hf x h2)
  rw [show (c :: t ++ '.' :: f : Str) = c :: (t ++ '.' :: f) from rfl] at hstr ⊢
  rw [parseFloat_digit_head hc hstr]
  unfold parseDec
  have hdot : ('.' : Char).isDigit = false := by decide
  rw [show (c :: (t ++ '.' :: f) : Str) = (c :: t) ++ '.' :: f from rfl]
  rw [takeWhile_append_not hdot hall, dropWhile_append_not hdot hall]
  simp only
  rw [if_pos]
  · simp
  · simp only [Bool.and_eq_true, List.all_eq_true]
    constructor
    · exact hf
    · simp

theorem mem_takeWhile {p : Char → Bool} {a : Char} :
    ∀ {l : Str}, a ∈ l.takeWhile p → p a = true := by
  intro l
  induction l with
  | nil => simp
  | cons b t ih =>
    by_cases hb : p b = true
    · rw [List.takeWhile_cons_of_pos hb]
      intro h
      rcases List.mem_cons.mp h with rfl | h2
      · exact hb
      · exact ih h2
    · rw [List.takeWhile_cons_of_neg (by simp [hb])]
      simp

theorem firstNumber_spec : ∀ {s n : Str}, firstNumber s = some n →
    (∃ c t2, n = c :: t2 ∧ c.isDigit = true) ∧
    (∀ ch ∈ n, ch.isDigit = true ∨ ch = '.') ∧ (parseFloat n).isSome = true := by
  intro s
  induction s with
  | nil => intro n h; simp [firstNumber] at h
  | cons c t ih =>
    intro n h
    unfold firstNumber at h
    by_cases hc : c.isDigit = true
    · rw [if_pos hc] at h
      simp only [Option.some.injEq] at h
      have htw : (c :: t).takeWhile Char.isDigit = c :: t.takeWhile Char.isDigit :=
        List.takeWhile_cons_of_pos hc
      have htall : ∀ x ∈ (c :: t).takeWhile Char.isDigit, x.isDigit = true :=
        fun x hx => mem_takeWhile hx
      split at h
      · -- dropWhile = '.' :: r2
        rename_i r2 heq
        subst h
        constructor
        · exact ⟨c, t.takeWhile Char.isDigit ++ '.' :: r2.takeWhile Char.isDigit, by rw [htw]; rfl, hc⟩
        constructor
        · intro ch hch
          rcases List.mem_append.mp hch with h1 | h1
          · exact .inl (htall ch h1)
          · rcases List.mem_cons.mp h1 with rfl | h2
            · exact .inr rfl
            · exact .inl (mem_takeWhile h2)
        · rw [htw]
          rw [show (c :: t.takeWhile Char.isDigit ++ '.' :: r2.takeWhile Char.isDigit : Str) =
                c :: (t.takeWhile Char.isDigit ++ '.' :: r2.takeWhile Char.isDigit) from rfl]
          exact parseFloat_digits_frac (htw ▸ htall) (fun x hx => mem_takeWhile hx)
      · -- default arm: n = takeWhile
        subst h
        refine ⟨⟨c, t.takeWhile Char.isDigit, htw, hc⟩,
                fun ch hch => .inl (htall ch hch), ?_⟩
        rw [htw]
        exact parseFloat_digits (htw ▸ htall)
    · rw [if_neg hc] at h
      exact ih h

/-! ### Shape and fixpoint lemmas for the scalar cleaners -/

/-- No currency symbols: the characters `replace` removes are absent. -/
def noMoney (s : Str) : Bool := s.all (fun c => c ≠ '$' && c ≠ ',')

/-- The invariant of non-`"N/A"` `clean_bankroll_value` outputs. -/
def bankGood (b : Str) : Prop :=
  b ≠ [] ∧ strip b = b ∧ noMoney b = true ∧ upper b ≠ ("N/A".data) ∧
  (parseFloat b).isSome = true

/-- The invariant of non-`"N/A"` `clean_bet_value` outputs. -/
def betGood (b : Str) : Prop := bankGood b ∧ upper b ≠ ("--".data)

theorem mem_removeOcc {c a : Char} {s : Str} (h : c ∈ removeOcc a s) :
    c ≠ a ∧ c ∈ s := by
  unfold removeOcc at h
  have := List.mem_filter.mp h
  exact ⟨by simpa using this.2, this.1⟩

theorem noMoney_strip_removes (s : Str) :
    noMoney (strip (removeOcc ',' (removeOcc '$' s))) = true := by
  rw [noMoney, List.all_eq_true]
  intro c hc
  have h1 := mem_removeOcc (mem_strip hc)
  have h2 := mem_removeOcc h1.2
  simp [h1.1, h2.1]

theorem removeOcc_eq_self {a : Char} {s : Str}
    (h : ∀ c ∈ s, c ≠ a) : removeOcc a s = s := by
  unfold removeOcc
  rw [List.filter_eq_self]
  intro c hc
  simpa using h c hc

theorem noMoney_removes_eq_self {b : Str} (h : noMoney b = true) :
    removeOcc ',' (removeOcc '$' b) = b := by
  rw [noMoney, List.all_eq_true] at h
  have h1 : ∀ c ∈ b, c ≠ '$' := by
    intro c hc
    have := h c hc
    simp at this
    exact this.1
  have h2 : ∀ c ∈ b, c ≠ ',' := by
    intro c hc
    have := h c hc
    simp at this
    exact this.2
  rw [removeOcc_eq_self h1, removeOcc_eq_self h2]

/-- Digits (and dots) survive currency cleaning facts: an output of
`firstNumber` satisfies the bankroll invariant. -/
theorem firstNumber_bankGood {s n : Str} (h : firstNumber s = some n) : bankGood n := by
  obtain ⟨⟨c, t2, rfl, hc⟩, hdig, hsome⟩ := firstNumber_spec h
  refine ⟨by simp, strip_digitish hdig, ?_, ?_, hsome⟩
  · rw [noMoney, List.all_eq_true]
    intro x hx
    rcases hdig x hx with hd | rfl
    · have hne1 : x ≠ '$' := by rintro rfl; simp [Char.isDigit] at hd
      have hne2 : x ≠ ',' := by rintro rfl; simp [Char.isDigit] at hd
      simp [hne1, hne2]
    · decide
  · intro he
    have hh : c.toUpper = 'N' := by
      have := congrArg List.head? he
      simpa [upper] using this
    rw [digit_toUpper c hc] at hh
    rw [hh] at hc
    simp [Char.isDigit] at hc

theorem firstNumber_betGood {s n : Str} (h : firstNumber s = some n) : betGood n := by
  obtain ⟨⟨c, t2, rfl, hc⟩, hdig, hsome⟩ := firstNumber_spec h
  refine ⟨firstNumber_bankGood h, ?_⟩
  intro he
  have hh : c.toUpper = '-' := by
    have := congrArg List.head? he
    simpa [upper] using this
  rw [digit_toUpper c hc] at hh
  rw [hh] at hc
  simp [Char.isDigit] at hc

/-- Round-one invariant: a bankroll cleaning result is `"N/A"` or good. -/
theorem cleanBankrollStr_shape (s : Str) :
    cleanBankrollStr s = ("N/A".data) ∨ bankGood (cleanBankrollStr s) := by
  simp only [cleanBankrollStr]
  split
  · left; rfl
  split
  · left; rfl
  rename_i hne hguard
  rw [Bool.or_eq_true_iff] at hguard
  push_neg at hguard
  cases hpf : parseFloat (strip (removeOcc ',' (removeOcc '$' s))) with
  | some x =>
    right
    show bankGood (strip (removeOcc ',' (removeOcc '$' s)))
    refine ⟨?_, strip_strip _, noMoney_strip_removes s, ?_, by rw [hpf]; rfl⟩
    · intro he
      exact absurd (by simp [he]) hguard.2
    · intro he
      exact absurd (by simp [he]) hguard.1
  | none =>
    cases hfn : firstNumber (strip (removeOcc ',' (removeOcc '$' s))) with
    | some n =>
      right
      show bankGood n
      exact firstNumber_bankGood hfn
    | none => left; rfl

/-- Fixpoint: cleaning a good bankroll string returns it unchanged. -/
theorem cleanBankrollStr_fix {b : Str} (h : bankGood b) : cleanBankrollStr b = b := by
  obtain ⟨hne, hstr, hmon, hna, hpf⟩ := h
  simp only [cleanBankrollStr]
  rw [noMoney_removes_eq_self hmon, hstr]
  rw [if_neg hne]
  rw [if_neg (by simp [hna, hne])]
  cases hp : parseFloat b with
  | some x => rfl
  | none => rw [hp] at hpf; simp at hpf

theorem cleanBetStr_shape (s : Str) :
    cleanBetStr s = ("N/A".data) ∨ betGood (cleanBetStr s) := by
  simp only [cleanBetStr]
  split
  · left; rfl
  rename_i hguard
  rw [Bool.or_eq_true_iff, Bool.or_eq_true_iff] at hguard
  push_neg at hguard
  cases hpf : parseFloat (strip (removeOcc ',' (removeOcc '$' s))) with
  | some x =>
    right
    show betGood (strip (removeOcc ',' (removeOcc '$' s)))
    refine ⟨⟨?_, strip_strip _, noMoney_strip_removes s, ?_, by rw [hpf]; rfl⟩, ?_⟩
    · intro he
      exact absurd (by simp [he]) hguard.2
    · intro he
      exact absurd (by simp [he]) hguard.1.1
    · intro he
      exact absurd (by simp [he]) hguard.1.2
  | none =>
    cases hfn : firstNumber (strip (removeOcc ',' (removeOcc '$' s))) with
    | some n =>
      right
      show betGood n
      exact firstNumber_betGood hfn
    | none => left; rfl

theorem cleanBetStr_fix {b : Str} (h : betGood b) : cleanBetStr b = b := by
  obtain ⟨⟨hne, hstr, hmon, hna, hpf⟩, hdash⟩ := h
  simp only [cleanBetStr]
  rw [noMoney_removes_eq_self hmon, hstr]
  rw [if_neg (by simp [hna, hdash, hne])]
  cases hp : parseFloat b with
  | some x => rfl
  | none => rw [hp] at hpf; simp at hpf

theorem stripB_append_one {c : Char} (hc : isSp c = false) :
    ∀ l : Str, stripB (l ++ [c]) = l ++ [c] := by
  intro l
  induction l with
  | nil =>
    rw [List.nil_append, stripB_cons_of_nil stripB_nil]
    simp [hc]
  | cons a t ih =>
    rw [List.cons_append]
    cases htc : t ++ [c] with
    | nil => simp at htc
    | cons x y =>
      rw [htc] at ih
      rw [stripB_cons_of_cons ih, ← htc]

theorem strip_append_one {s : Str} {c : Char} (h : strip s = s) (hs : s ≠ [])
    (hc : isSp c = false) : strip (s ++ [c]) = s ++ [c] := by
  obtain ⟨hdw, _⟩ := strip_eq_self_parts h
  unfold strip
  cases s with
  | nil => exact absurd rfl hs
  | cons a t =>
    have ha : isSp a = false := by
      have hh := List.head?_dropWhile_not isSp (a :: t)
      rw [hdw] at hh
      simpa using hh
    rw [List.cons_append, List.dropWhile_cons_of_neg (by simp [ha])]
    rw [show (a :: (t ++ [c]) : Str) = (a :: t) ++ [c] from rfl]
    exact stripB_append_one hc _

/-- The invariant of `clean_vpip_value` outputs: `"--"` or a percent-
terminated string whose prefix parses. -/
def vpipShape (v : Str) : Prop :=
  v = ("--".data) ∨
  (strip v = v ∧ v ≠ [] ∧ v ≠ ("--".data) ∧ v ≠ ("N/A".data) ∧
   endsW v ("%".data) = true ∧ (parseFloat v.dropLast).isSome = true)

theorem endsW_concat (s : Str) (c : Char) : endsW (s ++ [c]) [c] = true := by
  unfold endsW isPre
  rw [List.reverse_append]
  simp [isPre]

theorem concat_ne_of_last {s m : Str} {c d : Char} (hm : m.getLast? = some d)
    (hne : c ≠ d) : s ++ [c] ≠ m := by
  intro he
  rw [← he] at hm
  rw [List.getLast?_concat] at hm
  exact hne (by injection hm)

theorem cleanVpipStr_shape (s : Str) : vpipShape (cleanVpipStr s) := by
  simp only [cleanVpipStr]
  split
  · left; rfl
  rename_i hguard
  have hg : (¬strip s = ("--".data) ∧ ¬strip s = ("N/A".data)) ∧ ¬strip s = [] := by
    simpa using hguard
  obtain ⟨⟨hdash, hna⟩, hemp⟩ := hg
  split
  · rename_i hpc
    simp only [Bool.not_eq_true'] at hpc
    cases hpf : parseFloat (strip s) with
    | some x =>
      right
      show strip (strip s ++ ("%".data)) = strip s ++ ("%".data) ∧ _
      have hss := strip_strip s
      have hper : ("%".data : Str) = ['%'] := rfl
      rw [hper]
      refine ⟨strip_append_one hss hemp (by decide), by simp, ?_, ?_, ?_, ?_⟩
      · exact concat_ne_of_last (by rfl) (by decide)
      · exact concat_ne_of_last (by rfl) (by decide)
      · exact endsW_concat _ _
      · rw [List.dropLast_concat, hpf]
        rfl
    | none => left; rfl
  · rename_i hpc
    simp only [Bool.not_eq_true', Bool.not_eq_false] at hpc
    cases hpd : parseFloat (strip s).dropLast with
    | none =>
      show vpipShape (match (none : Option PyFloat) with
        | some (.finite q) => if 0 ≤ q ∧ q ≤ 100 then strip s else ("--".data)
        | _ => ("--".data))
      left; rfl
    | some x =>
      cases x with
      | finite q =>
        show vpipShape (if 0 ≤ q ∧ q ≤ 100 then strip s else ("--".data))
        split
        · right
          exact ⟨strip_strip s, hemp, hdash, hna, hpc, by rw [hpd]; rfl⟩
        · left; rfl
      | inf => left; rfl
      | neginf => left; rfl
      | nan => left; rfl

/-- The range condition that makes a vpip value stable under re-cleaning:
`"--"`, or a percent string whose prefix is a finite float in `[0, 100]`. -/
def vpipInRange (v : Str) : Bool :=
  v = ("--".data) ||
  (match parseFloat v.dropLast with
   | some (.finite q) => 0 ≤ q ∧ q ≤ 100
   | _ => false)

theorem cleanVpipStr_fix {v : Str} (hs : vpipShape v) (hr : vpipInRange v = true) :
    cleanVpipStr v = v := by
  rcases hs with rfl | ⟨hstr, hne, hdash, hna, hends, _⟩
  · rfl
  · simp only [cleanVpipStr, hstr]
    rw [if_neg (by simp [hdash, hna, hne])]
    rw [if_neg (by simp [hends])]
    rw [vpipInRange, Bool.or_eq_true_iff] at hr
    rcases hr with he | hq
    · exact absurd (of_decide_eq_true he) hdash
    · revert hq
      cases hp : parseFloat v.dropLast with
      | none => intro hq; simp at hq
      | some x =>
        cases x with
        | finite q =>
          intro hq
          show (if 0 ≤ q ∧ q ≤ 100 then v else ("--".data)) = v
          rw [if_pos (of_decide_eq_true hq)]
        | inf => intro hq; simp at hq
        | neginf => intro hq; simp at hq
        | nan => intro hq; simp at hq

/-- The eight possible `clean_position_value` outputs. -/
def posOutputs : List Str :=
  [("--".data), ("BTN".data), ("SB".data), ("BB".data), ("UTG".data),
   ("MP".data), ("CO".data), ("HJ".data)]

theorem positionCorrections_mem (p : Str) : positionCorrections p ∈ posOutputs := by
  unfold positionCorrections
  split
  · decide
  split
  · decide
  split
  · decide
  split
  · decide
  split
  · decide
  split
  · decide
  split
  · decide
  split
  · decide
  split
  · decide
  split
  · decide
  decide

theorem cleanPositionStr_shape (s : Str) : cleanPositionStr s ∈ posOutputs := by
  simp only [cleanPositionStr]
  split
  · decide
  split
  · rename_i hv
    unfold validPosition at hv
    have hm := List.mem_of_elem_eq_true hv
    simp only [posOutputs]
    simp at hm ⊢
    tauto
  · exact positionCorrections_mem _

theorem cleanPositionStr_fix : ∀ v ∈ posOutputs, cleanPositionStr v = v := by
  decide

/-- The four possible `clean_action_value` outputs. -/
def actOutputs : List Str :=
  [("--".data), ("Fold".data), ("Raise".data), ("Call".data)]

theorem cleanActionStr_shape (s : Str) : cleanActionStr s ∈ actOutputs := by
  simp only [cleanActionStr]
  split
  · decide
  split
  · decide
  split
  · decide
  split
  · decide
  · decide

theorem cleanActionStr_fix : ∀ v ∈ actOutputs, cleanActionStr v = v := by
  decide

/-! ### Card lemmas -/

theorem validCard_iff {s : Str} :
    validCard s = true ↔ ∃ r ∈ validRanks, ∃ c ∈ validSuits, s = r ++ [c] := by
  constructor
  · intro h
    unfold validCard at h
    cases hrev : s.reverse with
    | nil => rw [hrev] at h; simp at h
    | cons c rest =>
      rw [hrev] at h
      rw [Bool.and_eq_true_iff] at h
      refine ⟨rest.reverse, List.mem_of_elem_eq_true h.2, c, List.mem_of_elem_eq_true h.1, ?_⟩
      have := congrArg List.reverse hrev
      rw [List.reverse_reverse] at this
      rw [this]
      simp
  · rintro ⟨r, hr, c, hc, rfl⟩
    unfold validCard
    rw [List.reverse_append]
    simp only [List.reverse_singleton, List.singleton_append]
    rw [Bool.and_eq_true_iff]
    constructor
    · exact List.elem_eq_true_of_mem hc
    · rw [List.reverse_reverse]
      exact List.elem_eq_true_of_mem hr

theorem clean52 : ∀ r ∈ validRanks, ∀ c ∈ validSuits,
    clean_single_card (.str (r ++ [c])) = some (r ++ [c]) := by
  decide

theorem card_fix {s : Str} (h : validCard s = true) :
    clean_single_card (.str s) = some s := by
  obtain ⟨r, hr, c, hc, rfl⟩ := validCard_iff.mp h
  exact clean52 r hr c hc

theorem clean_single_card_valid {v : JVal} {s : Str}
    (h : clean_single_card v = some s) : validCard s = true := by
  unfold clean_single_card at h
  cases v with
  | str s0 =>
    simp only at h
    split at h
    · exact absurd h (by simp)
    split at h
    · rename_i hv
      injection h with h
      rw [← h]
      exact hv
    · split at h
      · rename_i r heq
        split at h
        · rename_i hrv
          injection h with h
          rw [← h]
          exact (Bool.and_eq_true_iff.mp hrv).2
        · exact absurd h (by simp)
      · exact absurd h (by simp)
  | null => exact absurd h (by simp)
  | bool b => exact absurd h (by simp)
  | num x => exact absurd h (by simp)
  | arr l => exact absurd h (by simp)
  | obj l => exact absurd h (by simp)

theorem cleanCards_filterMap : ∀ l : List JVal,
    cleanCards l = l.filterMap clean_single_card := by
  intro l
  induction l with
  | nil => rfl
  | cons c t ih =>
    unfold cleanCards
    cases hc : clean_single_card c with
    | some x => rw [List.filterMap_cons_some hc]; rw [ih]
    | none => rw [List.filterMap_cons_none hc]; exact ih

theorem cleanCards_valid {l : List JVal} {s : Str} (h : s ∈ cleanCards l) :
    validCard s = true := by
  rw [cleanCards_filterMap] at h
  obtain ⟨v, _, hv⟩ := List.mem_filterMap.mp h
  exact clean_single_card_valid hv

theorem cleanCards_fix : ∀ {b : List Str}, (∀ s ∈ b, validCard s = true) →
    cleanCards (b.map .str) = b := by
  intro b
  induction b with
  | nil => intro _; rfl
  | cons s t ih =>
    intro h
    simp only [List.map_cons]
    unfold cleanCards
    rw [card_fix (h s (List.mem_cons_self _ _))]
    rw [ih (fun x hx => h x (List.mem_cons_of_mem _ hx))]

/-- The invariant of cleaned player records. -/
def playerGood (p : CPlayer) : Prop :=
  bankGood p.bankroll ∧ vpipShape p.vpip ∧ p.position ∈ posOutputs ∧
  p.action ∈ actOutputs ∧ (p.bet = ("N/A".data) ∨ betGood p.bet)

theorem clean_vpip_shape (v : JVal) : vpipShape (clean_vpip_value v) := by
  cases v with
  | null => left; rfl
  | bool b => exact cleanVpipStr_shape _
  | num x => exact cleanVpipStr_shape _
  | str s => exact cleanVpipStr_shape _
  | arr l => exact cleanVpipStr_shape _
  | obj l => exact cleanVpipStr_shape _

theorem clean_bankroll_shape (v : JVal) :
    clean_bankroll_value v = ("N/A".data) ∨ bankGood (clean_bankroll_value v) := by
  cases v with
  | null => left; rfl
  | bool b => exact cleanBankrollStr_shape _
  | num x => exact cleanBankrollStr_shape _
  | str s => exact cleanBankrollStr_shape _
  | arr l => exact cleanBankrollStr_shape _
  | obj l => exact cleanBankrollStr_shape _

theorem clean_bet_shape (v : JVal) :
    clean_bet_value v = ("N/A".data) ∨ betGood (clean_bet_value v) := by
  cases v with
  | null => left; rfl
  | bool b => exact cleanBetStr_shape _
  | num x => exact cleanBetStr_shape _
  | str s => exact cleanBetStr_shape _
  | arr l => exact cleanBetStr_shape _
  | obj l => exact cleanBetStr_shape _

theorem clean_position_shape (v : JVal) : clean_position_value v ∈ posOutputs := by
  cases v with
  | null => decide
  | bool b => exact cleanPositionStr_shape _
  | num x => exact cleanPositionStr_shape _
  | str s => exact cleanPositionStr_shape _
  | arr l => exact cleanPositionStr_shape _
  | obj l => exact cleanPositionStr_shape _

theorem clean_action_shape (v : JVal) : clean_action_value v ∈ actOutputs := by
  cases v with
  | null => decide
  | bool b => exact cleanActionStr_shape _
  | num x => exact cleanActionStr_shape _
  | str s => exact cleanActionStr_shape _
  | arr l => exact cleanActionStr_shape _
  | obj l => exact cleanActionStr_shape _

theorem cleanOnePlayer_good {pv : JVal} {cp : CPlayer}
    (h : cleanOnePlayer pv = some cp) : playerGood cp := by
  unfold cleanOnePlayer at h
  cases pv with
  | obj pl =>
    simp only at h
    split at h
    · exact absurd h (by simp)
    split at h
    · rename_i hbne
      injection h with h
      subst h
      refine ⟨?_, clean_vpip_shape _, clean_position_shape _, clean_action_shape _,
              clean_bet_shape _⟩
      rcases clean_bankroll_shape (lookupD pl ("bankroll".data) (.str ("N/A".data))) with he | hg
      · exact absurd he hbne
      · exact hg
    · exact absurd h (by simp)
  | null => exact absurd h (by simp)
  | bool b => exact absurd h (by simp)
  | num x => exact absurd h (by simp)
  | str s => exact absurd h (by simp)
  | arr l => exact absurd h (by simp)

theorem na_upper : upper ("N/A".data) = ("N/A".data) := by decide

theorem cleanOnePlayer_fix {p : CPlayer} (hg : playerGood p) (hr : vpipInRange p.vpip = true) :
    cleanOnePlayer (embedPlayer p) = some p := by
  obtain ⟨b, v, pos, a, bet⟩ := p
  obtain ⟨hb, hv, hpos, ha, hbet⟩ := hg
  simp only at hb hv hr hpos ha hbet
  have hbna : b ≠ ("N/A".data) := by
    intro he
    exact hb.2.2.2.1 (by rw [he]; exact na_upper)
  have hbne : b ≠ [] := hb.1
  have h1 : isNAStr (.str b) = false := by
    simp only [isNAStr]
    exact decide_eq_false hbna
  have h2 : pyFalsy (.str b) = false := by
    simp only [pyFalsy]
    exact decide_eq_false hbne
  simp only [cleanOnePlayer, embedPlayer, lookupD, lookupA, List.cons.injEq,
    reduceCtorEq, if_true, if_false, Option.getD_some, h1, h2, Bool.or_self,
    Bool.false_or, Char.reduceEq, false_and, and_false, and_true, true_and,
    Option.getD_some]
  have e1 : clean_bankroll_value (.str b) = b := cleanBankrollStr_fix hb
  have e2 : clean_vpip_value (.str v) = v := cleanVpipStr_fix hv hr
  have e3 : clean_position_value (.str pos) = pos := cleanPositionStr_fix pos hpos
  have e4 : clean_action_value (.str a) = a := cleanActionStr_fix a ha
  have e5 : clean_bet_value (.str bet) = bet := by
    rcases hbet with rfl | hbg
    · rfl
    · exact cleanBetStr_fix hbg
  rw [e1, e2, e3, e4, e5]
  rw [if_pos hbna]

/-! ### Player-dict lemmas -/

/-- The key list of an association list. -/
def keysA {α : Type} (l : List (Str × α)) : List Str := l.map (fun kv => kv.1)

theorem insertA_not_mem {α : Type} {k : Str} {v : α} :
    ∀ {l : List (Str × α)}, k ∉ keysA l → insertA l k v = l ++ [(k, v)] := by
  intro l
  induction l with
  | nil => intro _; rfl
  | cons kv t ih =>
    intro h
    simp only [keysA, List.map_cons, List.mem_cons] at h
    push_neg at h
    obtain ⟨h1, h2⟩ := h
    obtain ⟨k1, v1⟩ := kv
    unfold insertA
    rw [if_neg (fun he => h1 he.symm)]
    rw [ih h2]
    rfl

theorem mem_insertA {α : Type} {x : Str × α} {k : Str} {v : α} :
    ∀ {l : List (Str × α)}, x ∈ insertA l k v → x ∈ l ∨ x = (k, v) := by
  intro l
  induction l with
  | nil =>
    intro h
    simp only [insertA, List.mem_singleton] at h
    exact .inr h
  | cons kv t ih =>
    obtain ⟨k1, v1⟩ := kv
    unfold insertA
    split
    · intro h
      rcases List.mem_cons.mp h with rfl | h2
      · exact .inr (by rename_i he; rw [he])
      · exact .inl (List.mem_cons_of_mem _ h2)
    · intro h
      rcases List.mem_cons.mp h with rfl | h2
      · exact .inl (List.mem_cons_self _ _)
      · rcases ih h2 with h3 | h3
        · exact .inl (List.mem_cons_of_mem _ h3)
        · exact .inr h3

theorem keysA_insertA_nodup {α : Type} {k : Str} {v : α} :
    ∀ {l : List (Str × α)}, (keysA l).Nodup → (keysA (insertA l k v)).Nodup := by
  intro l
  induction l with
  | nil => intro _; simp [insertA, keysA]
  | cons kv t ih =>
    obtain ⟨k1, v1⟩ := kv
    intro h
    simp only [keysA, List.map_cons, List.nodup_cons] at h
    unfold insertA
    split
    · simp only [keysA, List.map_cons, List.nodup_cons]
      exact h
    · rename_i hne
      simp only [keysA, List.map_cons, List.nodup_cons]
      constructor
      · intro hmem
        rcases List.mem_map.mp hmem with ⟨y, hm2, he2⟩
        rcases mem_insertA hm2 with h3 | h3
        · exact h.1 (by rw [← he2]; exact List.mem_map_of_mem _ h3)
        · subst h3
          exact hne he2.symm
      · exact ih h.2

theorem cleanPlayersGo_mem {x : Str × CPlayer} :
    ∀ {l : List (Str × JVal)} {acc : List (Str × CPlayer)},
      x ∈ cleanPlayersGo l acc → x ∈ acc ∨ playerGood x.2 := by
  intro l
  induction l with
  | nil => intro acc h; exact .inl h
  | cons kv t ih =>
    intro acc h
    obtain ⟨name, pv⟩ := kv
    unfold cleanPlayersGo at h
    revert h
    cases hcp : cleanOnePlayer pv with
    | some cp =>
      intro h
      rcases ih h with h2 | h2
      · rcases mem_insertA h2 with h3 | h3
        · exact .inl h3
        · right
          rw [h3]
          exact cleanOnePlayer_good hcp
      · exact .inr h2
    | none => exact ih

theorem cleanPlayersGo_nodup :
    ∀ {l : List (Str × JVal)} {acc : List (Str × CPlayer)},
      (keysA acc).Nodup → (keysA (cleanPlayersGo l acc)).Nodup := by
  intro l
  induction l with
  | nil => intro acc h; exact h
  | cons kv t ih =>
    intro acc h
    obtain ⟨name, pv⟩ := kv
    unfold cleanPlayersGo
    cases hcp : cleanOnePlayer pv with
    | some cp => exact ih (keysA_insertA_nodup h)
    | none => exact ih h

theorem clean_players_data_mem {v : JVal} {x : Str × CPlayer}
    (h : x ∈ clean_players_data v) : playerGood x.2 := by
  unfold clean_players_data at h
  cases v with
  | obj l =>
    rcases cleanPlayersGo_mem h with h2 | h2
    · simp at h2
    · exact h2
  | null => simp at h
  | bool b => simp at h
  | num x => simp at h
  | str s => simp at h
  | arr l => simp at h

theorem clean_players_data_nodup (v : JVal) :
    (keysA (clean_players_data v)).Nodup := by
  unfold clean_players_data
  cases v with
  | obj l => exact cleanPlayersGo_nodup (by simp [keysA])
  | null => simp [keysA]
  | bool b => simp [keysA]
  | num x => simp [keysA]
  | str s => simp [keysA]
  | arr l => simp [keysA]

theorem cleanPlayersGo_embed :
    ∀ {P : List (Str × CPlayer)}, (keysA P).Nodup →
      (∀ x ∈ P, playerGood x.2) → (∀ x ∈ P, vpipInRange x.2.vpip = true) →
      ∀ acc : List (Str × CPlayer), (∀ k ∈ keysA P, k ∉ keysA acc) →
      cleanPlayersGo (P.map (fun np => (np.1, embedPlayer np.2))) acc = acc ++ P := by
  intro P
  induction P with
  | nil => intro _ _ _ acc _; simp [cleanPlayersGo]
  | cons np t ih =>
    intro hnod hgood hrange acc hfresh
    obtain ⟨n, p⟩ := np
    simp only [List.map_cons]
    unfold cleanPlayersGo
    rw [cleanOnePlayer_fix (hgood (n, p) (List.mem_cons_self _ _))
        (hrange (n, p) (List.mem_cons_self _ _))]
    show cleanPlayersGo (t.map (fun np => (np.1, embedPlayer np.2)))
        (insertA acc n p) = acc ++ (n, p) :: t
    simp only [keysA, List.map_cons, List.nodup_cons] at hnod
    rw [insertA_not_mem (hfresh n (List.mem_cons_self _ _))]
    rw [ih hnod.2 (fun x hx => hgood x (List.mem_cons_of_mem _ hx))
        (fun x hx => hrange x (List.mem_cons_of_mem _ hx))
        (acc ++ [(n, p)]) ?_]
    · simp
    · intro k hk
      simp only [keysA, List.map_append, List.map_cons] at *
      intro hmem
      rcases List.mem_append.mp hmem with h1 | h1
      · exact hfresh k (by simp [hk]) h1
      · simp at h1
        rw [h1] at hk
        exact hnod.1 hk

/-! ### `clean_game_state` lemmas -/

theorem clean_game_state_some {d : JVal} {st : CState}
    (h : clean_game_state d = some st) :
    validate_game_state st = true ∧
    st.pot = clean_pot_value (d.getJ ("pot".data) .null) ∧
    st.board = clean_card_list (d.getJ ("board".data) (.arr [])) ∧
    st.hero_cards = clean_card_list (d.getJ ("hero_cards".data) (.arr [])) ∧
    st.players = clean_players_data (d.getJ ("players".data) (.obj [])) := by
  unfold clean_game_state at h
  cases d with
  | obj l =>
    simp only at h
    split at h
    · rename_i hval
      injection h with h
      subst h
      exact ⟨hval, rfl, rfl, rfl, rfl⟩
    · exact absurd h (by simp)
  | null => exact absurd h (by simp)
  | bool b => exact absurd h (by simp)
  | num x => exact absurd h (by simp)
  | str s => exact absurd h (by simp)
  | arr l => exact absurd h (by simp)

theorem not_blt_zero {x : PyFloat} (h : PyFloat.blt x (.finite 0) = false) :
    x = .nan ∨ PyFloat.ble (.finite 0) x = true := by
  cases x with
  | finite q =>
    right
    simp only [PyFloat.blt, decide_eq_false_iff_not, not_lt] at h
    simpa [PyFloat.ble] using h
  | inf => right; rfl
  | neginf => simp [PyFloat.blt] at h
  | nan => left; rfl

theorem validate_unfold {st : CState} (h : validate_game_state st = true) :
    PyFloat.blt st.pot (.finite 0) = false ∧
    st.board.length ≤ 5 ∧ st.hero_cards.length ≤ 2 := by
  unfold validate_game_state at h
  simp only [Bool.and_eq_true, Bool.not_eq_true', decide_eq_true_eq] at h
  exact ⟨h.1.1, h.1.2, h.2⟩

/-! ### Claim C1 -/

/-- C1 (amended): whenever `clean_game_state` returns a state rather than
rejecting, all four top-level fields are present and `players` is a mapping
(both by construction of `CState`), `0 ≤ len(board) ≤ 5`,
`0 ≤ len(hero_cards) ≤ 2`, and the pot is a float passing the validator's
non-negativity test `not (pot < 0)` — that is, `pot ≥ 0` **or `pot` is
`nan`**, which the check lets through. -/
theorem clean_game_state_invariants (d : JVal) (st : CState)
    (h : clean_game_state d = some st) :
    (st.pot = .nan ∨ PyFloat.ble (.finite 0) st.pot = true) ∧
    st.board.length ≤ 5 ∧ st.hero_cards.length ≤ 2 := by
  obtain ⟨hval, _, _, _, _⟩ := clean_game_state_some h
  obtain ⟨h1, h2, h3⟩ := validate_unfold hval
  exact ⟨not_blt_zero h1, h2, h3⟩

/-- C1, counterexample to the claim as stated: the raw document
`{"pot": "nan"}` is accepted (Python `float("nan")` parses and
`nan < 0` is false), yet its pot is not a number `≥ 0`. -/
theorem clean_game_state_nan_accepted :
    clean_game_state (.obj [(("pot".data), .str ("nan".data))]) =
      some { pot := .nan, board := [], hero_cards := [], players := [] } ∧
    PyFloat.ble (.finite 0) .nan = false := by
  constructor
  · decide
  · rfl

theorem clean_game_state_invariants_witness :
    ((CState.mk (.finite 0) [] [] []).pot = .nan ∨
      PyFloat.ble (.finite 0) (CState.mk (.finite 0) [] [] []).pot = true) ∧
    (CState.mk (.finite 0) [] [] []).board.length ≤ 5 ∧
    (CState.mk (.finite 0) [] [] []).hero_cards.length ≤ 2 :=
  clean_game_state_invariants (.obj []) (CState.mk (.finite 0) [] [] []) (by decide)

/-! ### Claim C4 -/

theorem endsW_percent_decomp {v : Str} (hne : v ≠ [])
    (he : endsW v ("%".data) = true) : v = v.dropLast ++ ['%'] := by
  unfold endsW at he
  cases hrev : v.reverse with
  | nil =>
    rw [List.reverse_eq_nil_iff] at hrev
    exact absurd hrev hne
  | cons c rest =>
    rw [hrev] at he
    have hc : c = '%' := by
      simp only [isPre] at he
      simp at he
      exact he.symm
    have hv : v = rest.reverse ++ [c] := by
      have h2 := congrArg List.reverse hrev
      rw [List.reverse_reverse] at h2
      rw [h2]
      simp
    rw [hv, hc, List.dropLast_concat]

theorem cleanVpipStr_percent {s : Str} (hends : endsW (strip s) ("%".data) = true) :
    cleanVpipStr s = ("--".data) ∨
    ∃ q : ℚ, cleanVpipStr s = strip s ∧
      parseFloat (strip s).dropLast = some (.finite q) ∧ 0 ≤ q ∧ q ≤ 100 := by
  simp only [cleanVpipStr]
  split
  · exact .inl rfl
  rw [if_neg (by simpa using hends)]
  cases hp : parseFloat (strip s).dropLast with
  | none => exact .inl rfl
  | some x =>
    cases x with
    | finite q =>
      by_cases hq : 0 ≤ q ∧ q ≤ 100
      · right
        refine ⟨q, ?_, rfl, hq.1, hq.2⟩
        show (if 0 ≤ q ∧ q ≤ 100 then strip s else ("--".data)) = strip s
        rw [if_pos hq]
      · left
        show (if 0 ≤ q ∧ q ≤ 100 then strip s else ("--".data)) = ("--".data)
        rw [if_neg hq]
    | inf => exact .inl rfl
    | neginf => exact .inl rfl
    | nan => exact .inl rfl

/-- C4 (amended): `clean_vpip_value` always returns `"--"` or a string
ending in `'%'` whose percent-stripped prefix parses as a float; the range
check to `[0, 100]` is applied **only** when the input itself (as a
stripped string) already ends in `'%'` — a bare numeric value is accepted
with `'%'` appended and no range check, so out-of-range percentages can be
produced. -/
theorem clean_vpip_value_shape (v : JVal) :
    (clean_vpip_value v = ("--".data) ∨
      ∃ s : Str, clean_vpip_value v = s ++ ['%'] ∧ (parseFloat s).isSome = true) ∧
    (endsW (strip (pyStr v)) ("%".data) = true →
      clean_vpip_value v = ("--".data) ∨
      ∃ q : ℚ, clean_vpip_value v = strip (pyStr v) ∧
        parseFloat (strip (pyStr v)).dropLast = some (.finite q) ∧
        0 ≤ q ∧ q ≤ 100) := by
  constructor
  · rcases clean_vpip_shape v with he | ⟨_, hne, _, _, hends, hpf⟩
    · exact .inl he
    · right
      refine ⟨(clean_vpip_value v).dropLast, ?_, hpf⟩
      exact endsW_percent_decomp hne hends
  · intro hends
    cases v with
    | null => exact absurd hends (by decide)
    | str s => exact cleanVpipStr_percent hends
    | bool b => exact cleanVpipStr_percent hends
    | num x => exact cleanVpipStr_percent hends
    | arr l => exact cleanVpipStr_percent hends
    | obj l => exact cleanVpipStr_percent hends

/-- C4, counterexample to the claim as stated: the bare value `"150"` is
accepted as `"150%"`, whose numeric part 150 is outside `[0, 100]`. -/
theorem clean_vpip_value_out_of_range :
    clean_vpip_value (.str ("150".data)) = ("150%".data) ∧
    parseFloat (("150%".data) : Str).dropLast = some (.finite 150) ∧
    ¬((150 : ℚ) ≤ 100) := by
  refine ⟨by decide, by decide, by norm_num⟩

theorem clean_vpip_value_shape_witness :
    clean_vpip_value (.str ("50%".data)) = ("--".data) ∨
    ∃ q : ℚ, clean_vpip_value (.str ("50%".data)) = strip (pyStr (.str ("50%".data))) ∧
      parseFloat (strip (pyStr (.str ("50%".data)))).dropLast = some (.finite q) ∧
      0 ≤ q ∧ q ≤ 100 :=
  (clean_vpip_value_shape (.str ("50%".data))).2 (by decide)

/-! ### Claim C5 -/

/-- C5 (amended): for a repair-table token `<value><suit>` with the suit
symbol preserved, repair-then-validate yields the documented corrected
token for the entries `0→Q`, `O→Q`, `S→5`, `B→8`, `G→6`; the entries
`I→1` and `L→1`, however, produce the rank `1`, which is **not** in the
rank grammar, so those repaired tokens fail validation and the original
tokens are rejected by `clean_single_card`. -/
theorem repair_table_validates (c : Char) (hc : c ∈ validSuits) :
    (repair_card_ocr_errors ('0' :: [c]) = some ('Q' :: [c]) ∧
      clean_single_card (.str ('0' :: [c])) = some ('Q' :: [c])) ∧
    (repair_card_ocr_errors ('O' :: [c]) = some ('Q' :: [c]) ∧
      clean_single_card (.str ('O' :: [c])) = some ('Q' :: [c])) ∧
    (repair_card_ocr_errors ('S' :: [c]) = some ('5' :: [c]) ∧
      clean_single_card (.str ('S' :: [c])) = some ('5' :: [c])) ∧
    (repair_card_ocr_errors ('B' :: [c]) = some ('8' :: [c]) ∧
      clean_single_card (.str ('B' :: [c])) = some ('8' :: [c])) ∧
    (repair_card_ocr_errors ('G' :: [c]) = some ('6' :: [c]) ∧
      clean_single_card (.str ('G' :: [c])) = some ('6' :: [c])) ∧
    (repair_card_ocr_errors ('I' :: [c]) = some ('1' :: [c]) ∧
      validCard ('1' :: [c]) = false ∧
      clean_single_card (.str ('I' :: [c])) = none) ∧
    (repair_card_ocr_errors ('L' :: [c]) = some ('1' :: [c]) ∧
      validCard ('1' :: [c]) = false ∧
      clean_single_card (.str ('L' :: [c])) = none) := by
  revert hc
  revert c
  decide

/-- C5, counterexample to the claim as stated: the documented table entry
`I→1` repairs `"I♠"` to `"1♠"`, which fails rank validation, so
repair-then-validate does not yield an accepted corrected token. -/
theorem repair_I_token_fails :
    repair_card_ocr_errors ("I♠".data) = some ("1♠".data) ∧
    validCard ("1♠".data) = false ∧
    clean_single_card (.str ("I♠".data)) = none := by
  decide

theorem repair_table_validates_witness :
    repair_card_ocr_errors ('0' :: ['♠']) = some ('Q' :: ['♠']) ∧
    clean_single_card (.str ('0' :: ['♠'])) = some ('Q' :: ['♠']) :=
  (repair_table_validates '♠' (by decide)).1

/-! ### Claim C10 -/

/-- C10: card-list cleaning is an order-preserving filter — the output is
exactly the in-order image of the accepted tokens under `clean_single_card`
(no reordering, duplication, or invention), and every output entry matches
the canonical rank+suit grammar. -/
theorem clean_card_list_filter (l : List JVal) :
    clean_card_list (.arr l) = l.filterMap clean_single_card ∧
    ∀ s ∈ clean_card_list (.arr l),
      ∃ r ∈ validRanks, ∃ c ∈ validSuits, s = r ++ [c] := by
  constructor
  · exact cleanCards_filterMap l
  · intro s hs
    exact validCard_iff.mp (cleanCards_valid hs)

theorem clean_card_list_filter_witness :
    ∃ r ∈ validRanks, ∃ c ∈ validSuits, ("A♠".data : Str) = r ++ [c] :=
  (clean_card_list_filter [.str ("A♠".data), .num (.finite 5)]).2
    ("A♠".data) (by decide)

/-! ### Claim C8 -/

theorem clean_card_list_valid {v : JVal} {s : Str}
    (h : s ∈ clean_card_list v) : validCard s = true := by
  unfold clean_card_list at h
  cases v with
  | arr l => exact cleanCards_valid h
  | null => simp at h
  | bool b => simp at h
  | num x => simp at h
  | str s2 => simp at h
  | obj l => simp at h

/-- C8 (amended): the Field Cleaner/Validator is idempotent **except for
the VPIP range check**: if a first clean succeeds and every cleaned
player's vpip is `"--"` or an in-range percentage, then cleaning the
re-serialized output succeeds and yields the identical state.  (Without
the range condition, a bare out-of-range vpip such as `"150"` becomes
`"150%"` on the first pass and `"--"` on the second, breaking
idempotence — see the counterexample.) -/
theorem clean_game_state_idempotent (d : JVal) (st : CState)
    (h : clean_game_state d = some st)
    (hr : ∀ x ∈ st.players, vpipInRange x.2.vpip = true) :
    clean_game_state (embedState st) = some st := by
  obtain ⟨hval, _, hboard, hhero, hplayers⟩ := clean_game_state_some h
  have hbv : ∀ s ∈ st.board, validCard s = true := by
    intro s hs
    rw [hboard] at hs
    exact clean_card_list_valid hs
  have hhv : ∀ s ∈ st.hero_cards, validCard s = true := by
    intro s hs
    rw [hhero] at hs
    exact clean_card_list_valid hs
  have hnod : (keysA st.players).Nodup := by
    rw [hplayers]
    exact clean_players_data_nodup _
  have hgood : ∀ x ∈ st.players, playerGood x.2 := by
    intro x hx
    rw [hplayers] at hx
    exact clean_players_data_mem hx
  have hplay : clean_players_data (.obj (st.players.map
      (fun np => (np.1, embedPlayer np.2)))) = st.players := by
    show cleanPlayersGo (st.players.map (fun np => (np.1, embedPlayer np.2))) [] = st.players
    rw [cleanPlayersGo_embed hnod hgood hr [] (fun k _ => List.not_mem_nil k)]
    rfl
  have hcards : cleanCards (st.board.map .str) = st.board := cleanCards_fix hbv
  have hhcards : cleanCards (st.hero_cards.map .str) = st.hero_cards := cleanCards_fix hhv
  show (if validate_game_state
      { pot := clean_pot_value ((embedState st).getJ ("pot".data) .null)
        board := clean_card_list ((embedState st).getJ ("board".data) (.arr []))
        hero_cards := clean_card_list ((embedState st).getJ ("hero_cards".data) (.arr []))
        players := clean_players_data ((embedState st).getJ ("players".data) (.obj [])) }
    then some _ else none) = some st
  have g1 : (embedState st).getJ ("pot".data) .null = .num st.pot := by
    simp [embedState, JVal.getJ, lookupD, lookupA]
  have g2 : (embedState st).getJ ("board".data) (.arr []) = .arr (st.board.map .str) := by
    simp [embedState, JVal.getJ, lookupD, lookupA]
  have g3 : (embedState st).getJ ("hero_cards".data) (.arr []) =
      .arr (st.hero_cards.map .str) := by
    simp [embedState, JVal.getJ, lookupD, lookupA]
  have g4 : (embedState st).getJ ("players".data) (.obj []) =
      .obj (st.players.map (fun np => (np.1, embedPlayer np.2))) := by
    simp [embedState, JVal.getJ, lookupD, lookupA]
  rw [g1, g2, g3, g4]
  have hst : ({ pot := clean_pot_value (.num st.pot)
                board := clean_card_list (.arr (st.board.map .str))
                hero_cards := clean_card_list (.arr (st.hero_cards.map .str))
                players := clean_players_data (.obj (st.players.map
                  (fun np => (np.1, embedPlayer np.2)))) } : CState) = st := by
    show ({ pot := st.pot
            board := cleanCards (st.board.map .str)
            hero_cards := cleanCards (st.hero_cards.map .str)
            players := clean_players_data (.obj (st.players.map
              (fun np => (np.1, embedPlayer np.2)))) } : CState) = st
    rw [hcards, hhcards, hplay]
  rw [hst, if_pos hval]

/-- The raw document whose cleaning is not idempotent: one seated player
with the bare out-of-range vpip `"150"`. -/
def c8rawDoc : JVal :=
  .obj [(("pot".data), .num (.finite 10)),
        (("players".data), .obj [(("Hero".data),
          .obj [(("bankroll".data), .str ("200".data)),
                (("vpip".data), .str ("150".data))])])]

/-- The first cleaning result of `c8rawDoc`. -/
def c8once : CState :=
  { pot := .finite 10, board := [], hero_cards := []
    players := [(("Hero".data),
      { bankroll := "200".data, vpip := "150%".data, position := "--".data
        action := "--".data, bet := "N/A".data })] }

/-- The second cleaning result: the vpip collapses to `"--"`. -/
def c8twice : CState :=
  { pot := .finite 10, board := [], hero_cards := []
    players := [(("Hero".data),
      { bankroll := "200".data, vpip := "--".data, position := "--".data
        action := "--".data, bet := "N/A".data })] }

/-- C8, counterexample to the claim as stated: both cleanings succeed, but
re-cleaning the serialized output of the first changes the vpip field from
`"150%"` to `"--"`, so the result is not identical. -/
theorem clean_game_state_not_idempotent :
    clean_game_state c8rawDoc = some c8once ∧
    clean_game_state (embedState c8once) = some c8twice ∧
    c8twice ≠ c8once := by
  refine ⟨by decide, by decide, by decide⟩

theorem clean_game_state_idempotent_witness :
    clean_game_state (embedState c8twice) = some c8twice :=
  clean_game_state_idempotent (embedState c8once) c8twice (by decide)
    (by decide)

/-! ### Claim C2 -/

theorem sameSet_iff {a b : List Str} :
    sameSet a b = true ↔ ∀ x : Str, x ∈ a ↔ x ∈ b := by
  unfold sameSet
  rw [Bool.and_eq_true, List.all_eq_true, List.all_eq_true]
  constructor
  · rintro ⟨h1, h2⟩ x
    constructor
    · intro hx
      simpa using h1 x hx
    · intro hx
      simpa using h2 x hx
  · intro h
    constructor
    · intro x hx
      simpa using (h x).mp hx
    · intro x hx
      simpa using (h x).mpr hx

theorem handResetOf_iff (st : OCRState) (i : CycleIn) :
    handResetOf st i = true ↔
      ((0 < st.lastHero.length ∧ i.hero.length = 0) ∨
       (0 < st.lastBoard.length ∧ i.board.length = 0) ∨
       (st.lastHero.length = 2 ∧ i.hero.length = 2 ∧
        ¬∀ x : Str, x ∈ i.hero ↔ x ∈ st.lastHero)) := by
  unfold handResetOf
  rw [Bool.or_eq_true_iff, Bool.or_eq_true_iff]
  constructor
  · rintro ((h | h) | h)
    · left
      rw [Bool.and_eq_true] at h
      constructor
      · rcases h with ⟨h1, _⟩
        simp only [Bool.not_eq_true', List.isEmpty_eq_false] at h1
        exact List.length_pos.mpr h1
      · rcases h with ⟨_, h2⟩
        simp only [List.isEmpty_iff] at h2
        simp [h2]
    · right; left
      rw [Bool.and_eq_true] at h
      constructor
      · rcases h with ⟨h1, _⟩
        simp only [Bool.not_eq_true', List.isEmpty_eq_false] at h1
        exact List.length_pos.mpr h1
      · rcases h with ⟨_, h2⟩
        simp only [List.isEmpty_iff] at h2
        simp [h2]
    · right; right
      rw [Bool.and_eq_true, Bool.and_eq_true] at h
      obtain ⟨⟨h1, h2⟩, h3⟩ := h
      refine ⟨by simpa using h2, by simpa using h1, ?_⟩
      intro hss
      rw [Bool.not_eq_true'] at h3
      rw [← sameSet_iff] at hss
      rw [hss] at h3
      simp at h3
  · rintro (⟨h1, h2⟩ | ⟨h1, h2⟩ | ⟨h1, h2, h3⟩)
    · left; left
      rw [Bool.and_eq_true]
      constructor
      · simp only [Bool.not_eq_true', List.isEmpty_eq_false]
        exact List.length_pos.mp h1
      · simp [List.isEmpty_iff, List.length_eq_zero.mp h2]
    · left; right
      rw [Bool.and_eq_true]
      constructor
      · simp only [Bool.not_eq_true', List.isEmpty_eq_false]
        exact List.length_pos.mp h1
      · simp [List.isEmpty_iff, List.length_eq_zero.mp h2]
    · right
      rw [Bool.and_eq_true, Bool.and_eq_true]
      refine ⟨⟨by simpa using h2, by simpa using h1⟩, ?_⟩
      rw [Bool.not_eq_true']
      rw [← Bool.not_eq_true]
      intro hss
      exact h3 (sameSet_iff.mp hss)

/-- C2: the hand-lifecycle classification of each cycle is exactly:
HandReset iff (previous hero-card count > 0 and current = 0) or (previous
board length > 0 and current board length = 0) or (both hero-card counts
are 2 and the two card sets differ); otherwise StreetAdvance iff the
current board length differs from the previously recorded street length;
otherwise Steady. -/
theorem classify_spec (st : OCRState) (i : CycleIn) :
    (classify st i = .reset ↔
      ((0 < st.lastHero.length ∧ i.hero.length = 0) ∨
       (0 < st.lastBoard.length ∧ i.board.length = 0) ∨
       (st.lastHero.length = 2 ∧ i.hero.length = 2 ∧
        ¬∀ x : Str, x ∈ i.hero ↔ x ∈ st.lastHero))) ∧
    (classify st i = .advance ↔
      (¬((0 < st.lastHero.length ∧ i.hero.length = 0) ∨
         (0 < st.lastBoard.length ∧ i.board.length = 0) ∨
         (st.lastHero.length = 2 ∧ i.hero.length = 2 ∧
          ¬∀ x : Str, x ∈ i.hero ↔ x ∈ st.lastHero)) ∧
       i.board.length ≠ st.lastStreet)) ∧
    (classify st i = .steady ↔
      (¬((0 < st.lastHero.length ∧ i.hero.length = 0) ∨
         (0 < st.lastBoard.length ∧ i.board.length = 0) ∨
         (st.lastHero.length = 2 ∧ i.hero.length = 2 ∧
          ¬∀ x : Str, x ∈ i.hero ↔ x ∈ st.lastHero)) ∧
       i.board.length = st.lastStreet)) := by
  unfold classify
  by_cases hr : handResetOf st i = true
  · rw [if_pos hr]
    rw [handResetOf_iff] at hr
    refine ⟨⟨fun _ => hr, fun _ => rfl⟩, ?_, ?_⟩
    · constructor
      · intro h
        exact absurd h (by simp)
      · rintro ⟨hnr, _⟩
        exact absurd hr hnr
    · constructor
      · intro h
        exact absurd h (by simp)
      · rintro ⟨hnr, _⟩
        exact absurd hr hnr
  · rw [if_neg hr]
    rw [handResetOf_iff, ← iff_false] at hr
    by_cases hs : i.board.length ≠ st.lastStreet
    · rw [if_pos hs]
      refine ⟨?_, ⟨fun _ => ⟨fun hR => hr.mp hR, hs⟩, fun _ => rfl⟩, ?_⟩
      · constructor
        · intro h
          exact absurd h (by simp)
        · intro hR
          exact absurd hR (fun hR2 => hr.mp hR2)
      · constructor
        · intro h
          exact absurd h (by simp)
        · rintro ⟨_, heq⟩
          exact absurd heq hs
    · rw [if_neg hs]
      push_neg at hs
      refine ⟨?_, ?_, ⟨fun _ => ⟨fun hR => hr.mp hR, hs⟩, fun _ => rfl⟩⟩
      · constructor
        · intro h
          exact absurd h (by simp)
        · intro hR
          exact absurd hR (fun hR2 => hr.mp hR2)
      · constructor
        · intro h
          exact absurd h (by simp)
        · rintro ⟨_, hne⟩
          exact absurd hs hne

/-! ### Claim C7 -/

theorem classify_advance_elim {st : OCRState} {i : CycleIn}
    (h : classify st i = .advance) :
    handResetOf st i = false ∧ i.board.length ≠ st.lastStreet := by
  unfold classify at h
  by_cases hr : handResetOf st i = true
  · rw [if_pos hr] at h
    simp at h
  · rw [if_neg hr] at h
    refine ⟨by simpa using hr, ?_⟩
    by_cases hs : i.board.length ≠ st.lastStreet
    · exact hs
    · rw [if_neg hs] at h
      simp at h

theorem classify_reset_elim {st : OCRState} {i : CycleIn}
    (h : classify st i = .reset) : handResetOf st i = true := by
  unfold classify at h
  by_cases hr : handResetOf st i = true
  · exact hr
  · rw [if_neg hr] at h
    by_cases hs : i.board.length ≠ st.lastStreet
    · rw [if_pos hs] at h
      simp at h
    · rw [if_neg hs] at h
      simp at h

theorem classify_steady_elim {st : OCRState} {i : CycleIn}
    (h : classify st i = .steady) :
    handResetOf st i = false ∧ i.board.length = st.lastStreet := by
  unfold classify at h
  by_cases hr : handResetOf st i = true
  · rw [if_pos hr] at h
    simp at h
  · rw [if_neg hr] at h
    refine ⟨by simpa using hr, ?_⟩
    by_cases hs : i.board.length ≠ st.lastStreet
    · rw [if_pos hs] at h
      simp at h
    · push_neg at hs
      exact hs

theorem lookupA_map_const {v : Str} {p : Str} :
    ∀ {l : List Str}, p ∈ l → lookupA (l.map (fun q => (q, v))) p = some v := by
  intro l
  induction l with
  | nil => simp
  | cons a t ih =>
    intro h
    simp only [List.map_cons, lookupA]
    by_cases ha : a = p
    · rw [if_pos ha]
    · rw [if_neg ha]
      exact ih (by rcases List.mem_cons.mp h with rfl | h2; exact absurd rfl ha; exact h2)

theorem trackOf_branch {st : OCRState} {i : CycleIn}
    (h : i.board.length ≠ st.lastStreet ∨ handResetOf st i = true) :
    trackOf st i = ((if handResetOf st i then [] else st.folded),
      (seatedOf i).map (fun p => (p, "--".data)),
      (seatedOf i).map (fun p => (p, "N/A".data)),
      i.board.length) := by
  unfold trackOf
  rw [if_pos]
  rcases h with h | h
  · simp [h]
  · simp [h]

/-- C7: on a StreetAdvance cycle (no reset), every seated player's action
is reset to `"--"` and bet to the `"N/A"` sentinel, the new street length
is recorded, and the folded-player set is preserved; on a HandReset cycle
the same action/bet reset and street recording occur and the folded set is
additionally cleared. -/
theorem refresh_track_effects (st : OCRState) (i : CycleIn) :
    (classify st i = .advance →
      (cycleStep st i).actions = (seatedOf i).map (fun p => (p, "--".data)) ∧
      (cycleStep st i).bets = (seatedOf i).map (fun p => (p, "N/A".data)) ∧
      (∀ p ∈ seatedOf i, lookupA (cycleStep st i).actions p = some ("--".data)) ∧
      (∀ p ∈ seatedOf i, lookupA (cycleStep st i).bets p = some ("N/A".data)) ∧
      (cycleStep st i).lastStreet = i.board.length ∧
      (cycleStep st i).folded = st.folded) ∧
    (classify st i = .reset →
      (cycleStep st i).actions = (seatedOf i).map (fun p => (p, "--".data)) ∧
      (cycleStep st i).bets = (seatedOf i).map (fun p => (p, "N/A".data)) ∧
      (∀ p ∈ seatedOf i, lookupA (cycleStep st i).actions p = some ("--".data)) ∧
      (∀ p ∈ seatedOf i, lookupA (cycleStep st i).bets p = some ("N/A".data)) ∧
      (cycleStep st i).lastStreet = i.board.length ∧
      (cycleStep st i).folded = []) := by
  constructor
  · intro h
    obtain ⟨hr, hs⟩ := classify_advance_elim h
    have ht := trackOf_branch (.inl hs)
    rw [hr] at ht
    simp only [if_false, Bool.false_eq_true] at ht
    unfold cycleStep refresh_all
    simp only [ht]
    refine ⟨by trivial, by trivial, ?_, ?_, by trivial, by trivial⟩
    · intro p hp
      exact lookupA_map_const hp
    · intro p hp
      exact lookupA_map_const hp
  · intro h
    have hr := classify_reset_elim h
    have ht := trackOf_branch (.inr hr)
    rw [hr] at ht
    simp only [if_true] at ht
    unfold cycleStep refresh_all
    simp only [ht]
    refine ⟨by trivial, by trivial, ?_, ?_, by trivial, by trivial⟩
    · intro p hp
      exact lookupA_map_const hp
    · intro p hp
      exact lookupA_map_const hp


/-! ### Claim C3 -/

theorem refresh_emit_eq (st : OCRState) (i : CycleIn) :
    (refresh_all st i).2 =
      (if (decide (st.prevHash ≠ some (snapOf st i)) || handResetOf st i) = true
       then some (emitOf i (trackOf st i).2.1 (trackOf st i).2.2.1) else none) := by
  rfl

theorem refresh_prevHash_eq (st : OCRState) (i : CycleIn) :
    (cycleStep st i).prevHash =
      (if (decide (st.prevHash ≠ some (snapOf st i)) || handResetOf st i) = true
       then some (snapOf st i) else st.prevHash) := by
  rfl

/-- C3: a cycle emits (returns a serialized state and persists it) iff the
seat-sorted snapshot of all raw extracted fields differs from the previous
cycle's snapshot or a HandReset was classified; in particular, if a cycle
emits and the next cycle classifies no reset and computes an identical
snapshot, the next cycle returns the no-update signal `none`. -/
theorem refresh_emits_iff :
    (∀ (st : OCRState) (i : CycleIn),
      (refresh_all st i).2.isSome = true ↔
        (st.prevHash ≠ some (snapOf st i) ∨ handResetOf st i = true)) ∧
    (∀ (st : OCRState) (i1 i2 : CycleIn),
      (refresh_all st i1).2.isSome = true →
      handResetOf (cycleStep st i1) i2 = false →
      snapOf (cycleStep st i1) i2 = snapOf st i1 →
      (refresh_all (cycleStep st i1) i2).2 = none) := by
  have hiff : ∀ (st : OCRState) (i : CycleIn),
      (refresh_all st i).2.isSome = true ↔
        (st.prevHash ≠ some (snapOf st i) ∨ handResetOf st i = true) := by
    intro st i
    rw [refresh_emit_eq]
    by_cases hc : (decide (st.prevHash ≠ some (snapOf st i)) || handResetOf st i) = true
    · rw [if_pos hc]
      simp only [Option.isSome_some, true_iff]
      rcases Bool.or_eq_true_iff.mp hc with h | h
      · exact .inl (of_decide_eq_true h)
      · exact .inr h
    · rw [if_neg hc]
      simp only [Option.isSome_none, Bool.false_eq_true, false_iff]
      rw [Bool.or_eq_true_iff] at hc
      push_neg at hc
      rintro (h | h)
      · exact hc.1 (decide_eq_true h)
      · exact hc.2 h
  refine ⟨hiff, ?_⟩
  intro st i1 i2 hemit hreset hsnap
  have hprev : (cycleStep st i1).prevHash = some (snapOf st i1) := by
    rw [refresh_prevHash_eq]
    rw [if_pos]
    rw [refresh_emit_eq] at hemit
    by_cases hc : (decide (st.prevHash ≠ some (snapOf st i1)) || handResetOf st i1) = true
    · exact hc
    · rw [if_neg hc] at hemit
      simp at hemit
  rw [refresh_emit_eq]
  rw [if_neg]
  rw [hsnap, hprev, hreset]
  simp

/-- The `OCR.__init__` tracking state. -/
def ocrInit : OCRState :=
  { seated := [], bankrolls := [], vpips := [], positions := [], actions := []
    bets := [], prevHash := none, folded := [], lastStreet := 0
    lastHero := [], lastBoard := [] }

/-- A quiet cycle: one seated player, no cards, no readable action text. -/
def calmCycle : CycleIn :=
  { pot := "10".data, board := [], hero := []
    bank := fun p => if p = ("Hero".data) then ("100".data) else ("N/A".data)
    vpipRaw := fun _ => ("N/A".data), posDist := fun _ => none
    words := fun _ => [], betRaw := fun _ => ("N/A".data) }

theorem refresh_emits_iff_witness :
    (refresh_all (cycleStep ocrInit calmCycle) calmCycle).2 = none :=
  refresh_emits_iff.2 ocrInit calmCycle calmCycle (by decide) (by decide) (by decide)

/-! ### Claim C9 -/

theorem foldl_min_all_none {x : Str × Option ℚ} :
    ∀ {t : List (Str × Option ℚ)}, x.2 = none → (∀ y ∈ t, y.2 = none) →
      t.foldl (fun best y => if distLt y.2 best.2 then y else best) x = x := by
  intro t
  induction t generalizing x with
  | nil => intro _ _; rfl
  | cons y t2 ih =>
    intro hx hall
    simp only [List.foldl_cons]
    have hy : y.2 = none := hall y (List.mem_cons_self _ _)
    rw [hy, hx]
    show t2.foldl (fun best y => if distLt y.2 best.2 then y else best)
        (if distLt none none then y else x) = x
    rw [if_neg (by simp [distLt])]
    exact ih hx (fun z hz => hall z (List.mem_cons_of_mem _ hz))

/-- C9 (amended): when the position-indicator capture fails for every
seated player, every distance is infinity, the cycle does not fail, and —
contrary to the claim as stated — the assignment does **not** degrade to
`"--"`: with no seated players it is empty, and otherwise the first
seated player is taken as the button and rotation labels are assigned. -/
theorem positionsOf_capture_failure (i : CycleIn)
    (h : ∀ p ∈ seatedOf i, i.posDist p = none) :
    positionsOf i = (seatedOf i).zip posLabels := by
  unfold positionsOf
  cases hs : seatedOf i with
  | nil => rfl
  | cons a t =>
    have ha : i.posDist a = none := h a (by rw [hs]; exact List.mem_cons_self _ _)
    have hall : ∀ y ∈ (List.map (fun p => (p, i.posDist p)) t), y.2 = none := by
      intro y hy
      rcases List.mem_map.mp hy with ⟨p, hp, rfl⟩
      exact h p (by rw [hs]; exact List.mem_cons_of_mem _ hp)
    have hfold := foldl_min_all_none (x := (a, i.posDist a))
        (t := List.map (fun p => (p, i.posDist p)) t) ha hall
    show (rotateAt (a :: t) ((List.map (fun p => (p, i.posDist p)) t).foldl
        (fun best y => if distLt y.2 best.2 then y else best) (a, i.posDist a)).1).zip
          posLabels = (a :: t).zip posLabels
    rw [hfold]
    show (rotateAt (a :: t) a).zip posLabels = (a :: t).zip posLabels
    unfold rotateAt idxOfS
    rw [if_pos rfl]
    simp

/-- C9, counterexample to the claim as stated: with one seated player
whose position capture fails (distance infinity), the classifier assigns
`BTN`, not `"--"`, and `refresh_all` records that assignment. -/
theorem positions_capture_failure_btn :
    seatedOf calmCycle = [("Hero".data)] ∧
    calmCycle.posDist ("Hero".data) = none ∧
    positionsOf calmCycle = [(("Hero".data), ("BTN".data))] ∧
    (cycleStep ocrInit calmCycle).positions = [(("Hero".data), ("BTN".data))] ∧
    ("BTN".data : Str) ≠ ("--".data) := by
  refine ⟨by decide, rfl, by decide, by decide, by decide⟩

theorem positionsOf_capture_failure_witness :
    positionsOf calmCycle = (seatedOf calmCycle).zip posLabels :=
  positionsOf_capture_failure calmCycle (by decide)

/-! ### Claim C6 -/

theorem insertS_subset {p : Str} {s : List Str} : s ⊆ insertS p s := by
  unfold insertS
  split
  · exact fun x hx => hx
  · exact fun x hx => List.mem_append.mpr (.inl hx)

theorem insertS_self_mem (p : Str) (s : List Str) : p ∈ insertS p s := by
  unfold insertS
  split
  · assumption
  · exact List.mem_append.mpr (.inr (List.mem_singleton.mpr rfl))

theorem actStep_folded_sub (i : CycleIn) (acc : List Str × List (Str × Str))
    (p' : Str) : acc.1 ⊆ (actStep i acc p').1 := by
  simp only [actStep]
  split
  · split
    · exact insertS_subset
    · split
      · exact fun x hx => hx
      · split
        · exact fun x hx => hx
        · split
          · exact fun x hx => hx
          · exact fun x hx => hx
  · exact fun x hx => hx

theorem actStep_acts (i : CycleIn) (acc : List Str × List (Str × Str)) (p' : Str) :
    ∃ x, (actStep i acc p').2 = acc.2 ++ [(p', x)] := by
  simp only [actStep]
  split
  · split
    · exact ⟨_, rfl⟩
    · split
      · exact ⟨_, rfl⟩
      · split
        · exact ⟨_, rfl⟩
        · split
          · exact ⟨_, rfl⟩
          · exact ⟨_, rfl⟩
  · exact ⟨_, rfl⟩

theorem actStep_self_fold {i : CycleIn} {acc : List Str × List (Str × Str)} {p : Str}
    (hall : p ∈ allPlayers) (hf : p ∈ acc.1) :
    (actStep i acc p).2 = acc.2 ++ [(p, "Fold".data)] ∧ p ∈ (actStep i acc p).1 := by
  simp only [actStep]
  rw [if_pos hall]
  by_cases hsub : hasSub ("fold".data) (i.words p) = true
  · rw [if_pos hsub]
    exact ⟨rfl, insertS_self_mem _ _⟩
  · rw [if_neg hsub, if_pos hf]
    exact ⟨rfl, hf⟩

theorem actFold_folded_sub (i : CycleIn) :
    ∀ (ps : List Str) (acc : List Str × List (Str × Str)),
      acc.1 ⊆ (ps.foldl (actStep i) acc).1 := by
  intro ps
  induction ps with
  | nil => exact fun acc x hx => hx
  | cons q t ih =>
    intro acc
    simp only [List.foldl_cons]
    exact fun x hx => ih (actStep i acc q) (actStep_folded_sub i acc q hx)

theorem actFold_acc_app (i : CycleIn) :
    ∀ (ps : List Str) (acc : List Str × List (Str × Str)),
      ∃ tl, (ps.foldl (actStep i) acc).2 = acc.2 ++ tl := by
  intro ps
  induction ps with
  | nil => exact fun acc => ⟨[], by simp⟩
  | cons q t ih =>
    intro acc
    simp only [List.foldl_cons]
    obtain ⟨x, hx⟩ := actStep_acts i acc q
    obtain ⟨tl, htl⟩ := ih (actStep i acc q)
    exact ⟨[(q, x)] ++ tl, by rw [htl, hx]; simp⟩

theorem lookupA_cons {α : Type} (k1 : Str) (v1 : α) (t : List (Str × α)) (q : Str) :
    lookupA ((k1, v1) :: t) q = if k1 = q then some v1 else lookupA t q := rfl

theorem lookupA_append_left {α : Type} {l1 l2 : List (Str × α)} {p : Str} {v : α}
    (h : lookupA l1 p = some v) : lookupA (l1 ++ l2) p = some v := by
  induction l1 with
  | nil => simp [lookupA] at h
  | cons kv t ih =>
    obtain ⟨k1, v1⟩ := kv
    rw [lookupA_cons] at h
    rw [List.cons_append, lookupA_cons]
    by_cases hk : k1 = p
    · rw [if_pos hk] at h ⊢
      exact h
    · rw [if_neg hk] at h ⊢
      exact ih h

theorem lookupA_append_none {α : Type} {l1 l2 : List (Str × α)} {p : Str}
    (h : lookupA l1 p = none) : lookupA (l1 ++ l2) p = lookupA l2 p := by
  induction l1 with
  | nil => rfl
  | cons kv t ih =>
    obtain ⟨k1, v1⟩ := kv
    rw [lookupA_cons] at h
    rw [List.cons_append, lookupA_cons]
    by_cases hk : k1 = p
    · rw [if_pos hk] at h
      exact absurd h (by simp)
    · rw [if_neg hk] at h ⊢
      exact ih h

theorem actFold_lookup (i : CycleIn) {p : Str} (hall : p ∈ allPlayers) :
    ∀ (ps : List Str) (acc : List Str × List (Str × Str)),
      p ∈ acc.1 → p ∈ ps → lookupA acc.2 p = none →
      lookupA ((ps.foldl (actStep i) acc).2) p = some ("Fold".data) := by
  intro ps
  induction ps with
  | nil => intro acc _ hps _; simp at hps
  | cons q t ih =>
    intro acc hf hps hacc
    simp only [List.foldl_cons]
    by_cases hq : q = p
    · subst hq
      obtain ⟨hacts, _⟩ := actStep_self_fold hall hf
      obtain ⟨tl, htl⟩ := actFold_acc_app i t (actStep i acc q)
      rw [htl, hacts]
      rw [List.append_assoc]
      rw [lookupA_append_none hacc]
      rw [List.cons_append, lookupA_cons]
      rw [if_pos rfl]
    · obtain ⟨x, hx⟩ := actStep_acts i acc q
      refine ih (actStep i acc q) (actStep_folded_sub i acc q hf) ?_ ?_
      · rcases List.mem_cons.mp hps with rfl | h2
        · exact absurd rfl hq
        · exact h2
      · rw [hx, lookupA_append_none hacc]
        rw [lookupA_cons, if_neg hq]
        rfl

theorem actFold_insert (i : CycleIn) {p : Str} (hall : p ∈ allPlayers)
    (hw : hasSub ("fold".data) (i.words p) = true) :
    ∀ (ps : List Str) (acc : List Str × List (Str × Str)),
      p ∈ ps → p ∈ (ps.foldl (actStep i) acc).1 := by
  intro ps
  induction ps with
  | nil => intro acc hps; simp at hps
  | cons q t ih =>
    intro acc hps
    simp only [List.foldl_cons]
    by_cases hq : q = p
    · subst hq
      refine actFold_folded_sub i t (actStep i acc q) ?_
      simp only [actStep]
      rw [if_pos hall, if_pos hw]
      exact insertS_self_mem _ _
    · refine ih (actStep i acc q) ?_
      rcases List.mem_cons.mp hps with rfl | h2
      · exact absurd rfl hq
      · exact h2

theorem seated_mem_all {i : CycleIn} {p : Str} (h : p ∈ seatedOf i) :
    p ∈ allPlayers :=
  List.mem_of_mem_filter h

theorem trackOf_steady {st : OCRState} {i : CycleIn}
    (h1 : handResetOf st i = false) (h2 : i.board.length = st.lastStreet) :
    trackOf st i = ((actionsOf i st.folded).1, (actionsOf i st.folded).2,
      betsOf i, st.lastStreet) := by
  unfold trackOf
  rw [if_neg (by simp [h1, h2])]

theorem refresh_steady_fold {st : OCRState} {i : CycleIn} {p : Str}
    (hst : classify st i = .steady) (hp : p ∈ st.folded) (hseat : p ∈ seatedOf i) :
    lookupA (cycleStep st i).actions p = some ("Fold".data) := by
  obtain ⟨hr, hs⟩ := classify_steady_elim hst
  have ht := trackOf_steady hr hs
  unfold cycleStep refresh_all
  simp only [ht]
  exact actFold_lookup i (seated_mem_all hseat) (seatedOf i) (st.folded, [])
    hp hseat rfl

theorem refresh_steady_readfold {st : OCRState} {i : CycleIn} {p : Str}
    (hst : classify st i = .steady) (hseat : p ∈ seatedOf i)
    (hw : hasSub ("fold".data) (i.words p) = true) :
    p ∈ (cycleStep st i).folded := by
  obtain ⟨hr, hs⟩ := classify_steady_elim hst
  have ht := trackOf_steady hr hs
  unfold cycleStep refresh_all
  simp only [ht]
  exact actFold_insert i (seated_mem_all hseat) hw (seatedOf i) (st.folded, []) hseat

theorem refresh_nonreset_folded {st : OCRState} {i : CycleIn}
    (h : classify st i ≠ .reset) : st.folded ⊆ (cycleStep st i).folded := by
  have hr : handResetOf st i = false := by
    by_cases hb : handResetOf st i = true
    · exact absurd (by unfold classify; rw [if_pos hb]) h
    · simpa using hb
  by_cases hs : i.board.length = st.lastStreet
  · have ht := trackOf_steady hr hs
    unfold cycleStep refresh_all
    simp only [ht]
    exact actFold_folded_sub i (seatedOf i) (st.folded, [])
  · have ht := trackOf_branch (.inl hs)
    rw [hr] at ht
    simp only [if_false, Bool.false_eq_true] at ht
    unfold cycleStep refresh_all
    simp only [ht]
    exact fun x hx => hx

theorem refresh_reset_clears {st : OCRState} {i : CycleIn}
    (h : classify st i = .reset) : (cycleStep st i).folded = [] := by
  have hr := classify_reset_elim h
  have ht := trackOf_branch (.inr hr)
  rw [hr] at ht
  simp only [if_true] at ht
  unfold cycleStep refresh_all
  simp only [ht]

/-- C6: within one hand, fold markers are sticky — reading "fold" for a
seated player on a Steady cycle adds the seat to the folded set; any cycle
not classified HandReset preserves the folded set (it is cleared only by a
HandReset); and once a seat is in the folded set, along any run of cycles
with no HandReset it stays folded and every Steady cycle reports `"Fold"`
as that seat's action regardless of the text read. -/
theorem sticky_fold_within_hand :
    (∀ (st : OCRState) (i : CycleIn) (p : Str),
      classify st i = .steady → p ∈ seatedOf i →
      hasSub ("fold".data) (i.words p) = true → p ∈ (cycleStep st i).folded) ∧
    (∀ (st : OCRState) (i : CycleIn),
      classify st i ≠ .reset → st.folded ⊆ (cycleStep st i).folded) ∧
    (∀ (st : OCRState) (i : CycleIn),
      classify st i = .reset → (cycleStep st i).folded = []) ∧
    (∀ (st : OCRState) (cycles : List CycleIn) (p : Str),
      p ∈ st.folded →
      (∀ k (hk : k < cycles.length),
        classify (runCycles st (cycles.take k)) (cycles.get ⟨k, hk⟩) ≠ .reset) →
      ∀ (k : Nat) (hk : k < cycles.length),
        p ∈ (runCycles st (cycles.take (k + 1))).folded ∧
        (classify (runCycles st (cycles.take k)) (cycles.get ⟨k, hk⟩) = .steady →
         p ∈ seatedOf (cycles.get ⟨k, hk⟩) →
         lookupA (cycleStep (runCycles st (cycles.take k))
           (cycles.get ⟨k, hk⟩)).actions p = some ("Fold".data))) := by
  refine ⟨fun st i p => refresh_steady_readfold,
          fun st i => refresh_nonreset_folded,
          fun st i => refresh_reset_clears, ?_⟩
  intro st cycles p hp hnr
  have htake : ∀ (n : Nat) (hn : n < cycles.length),
      cycles.take (n + 1) = cycles.take n ++ [cycles.get ⟨n, hn⟩] := by
    intro n hn
    rw [List.take_succ]
    rw [List.getElem?_eq_getElem hn]
    rfl
  have key : ∀ k, k ≤ cycles.length → p ∈ (runCycles st (cycles.take k)).folded := by
    intro k
    induction k with
    | zero =>
      intro _
      simpa [runCycles] using hp
    | succ n ihn =>
      intro hk1
      have hn : n < cycles.length := Nat.lt_of_succ_le hk1
      rw [htake n hn]
      unfold runCycles
      rw [List.foldl_append]
      show p ∈ (cycleStep (runCycles st (cycles.take n)) (cycles.get ⟨n, hn⟩)).folded
      exact refresh_nonreset_folded (hnr n hn) (ihn (le_of_lt hn))
  intro k hk
  constructor
  · exact key (k + 1) (Nat.succ_le_of_lt hk)
  · intro hsteady hseat
    exact refresh_steady_fold hsteady (key k (le_of_lt hk)) hseat

/-- The initial tracking state with one already-folded seat. -/
def ocrFoldedInit : OCRState := { ocrInit with folded := [("Hero".data)] }

theorem sticky_fold_witness :
    ("Hero".data : Str) ∈ (runCycles ocrFoldedInit ([calmCycle].take (0 + 1))).folded ∧
    lookupA (cycleStep (runCycles ocrFoldedInit ([calmCycle].take 0))
      ([calmCycle].get ⟨0, by decide⟩)).actions ("Hero".data) = some ("Fold".data) := by
  have h := sticky_fold_within_hand.2.2.2 ocrFoldedInit [calmCycle] ("Hero".data)
    (by decide)
    (fun k hk => by
      have hk0 : k = 0 := Nat.lt_one_iff.mp hk
      subst hk0
      exact (by decide :
        classify (runCycles ocrFoldedInit ([calmCycle].take 0))
          ([calmCycle].get ⟨0, Nat.one_pos⟩) ≠ Cls.reset))
    0 (by decide)
  exact ⟨h.1, h.2 (by decide) (by decide)⟩

/-- A cycle whose board shows a flop (street change from the initial state). -/
def flopCycle : CycleIn :=
  { calmCycle with board := [("A♠".data), ("K♣".data), ("Q♦".data)] }

theorem refresh_track_effects_witness :
    (cycleStep ocrFoldedInit flopCycle).actions =
      (seatedOf flopCycle).map (fun p => (p, "--".data)) ∧
    (cycleStep ocrFoldedInit flopCycle).bets =
      (seatedOf flopCycle).map (fun p => (p, "N/A".data)) ∧
    (∀ p ∈ seatedOf flopCycle,
      lookupA (cycleStep ocrFoldedInit flopCycle).actions p = some ("--".data)) ∧
    (∀ p ∈ seatedOf flopCycle,
      lookupA (cycleStep ocrFoldedInit flopCycle).bets p = some ("N/A".data)) ∧
    (cycleStep ocrFoldedInit flopCycle).lastStreet = flopCycle.board.length ∧
    (cycleStep ocrFoldedInit flopCycle).folded = ocrFoldedInit.folded :=
  (refresh_track_effects ocrFoldedInit flopCycle).1 (by decide)

theorem classify_spec_witness : classify ocrInit calmCycle = Cls.steady :=
  ((classify_spec ocrInit calmCycle).2.2).mpr
    ⟨by rintro (⟨h, _⟩ | ⟨h, _⟩ | ⟨h, _, _⟩) <;> simp [ocrInit] at h, by decide⟩
